import Mathlib

/-!
FASTQ read and base counters (`ns0007.c`, `jf0007.c`).

A shallow embedding of the record scan of `ns0007.c`: the standard input is a
list of bytes, `fgets` is a function on that list, and the `while` loop of
`main` is iterated with explicit state (the unread input and the three
counters).  The argument processing of `main` and the program `jf0007.c`
follow further down.

Conventions of the embedding:
* `unsigned` and `int` are 32 bits wide, `unsigned short` 16 bits and
  `unsigned long long` 64 bits; arithmetic on them is written on `Nat`/`Int`
  with an explicit remainder;
* whether plain `char` is signed is left to the C implementation, so it is a
  parameter `charSigned` of the model;
* read errors of the stream are not modelled: `fgets` returns `NULL` exactly
  at the end of the input.
-/

namespace Genomics

set_option maxRecDepth 4000

/-! ## Data model -/

/-- One byte of the input stream. -/
abbrev Byte := Fin 256

/-- The value of `MAX_CHAR` in `ns0007.c`. -/
def MAX_CHAR : Nat := 4096

/-- The three counters of `main` in `ns0007.c`, each an `unsigned long long`. -/
structure Counters where
  count_reads : Nat
  count_bases : Nat
  count_all : Nat
deriving DecidableEq

/-- How a run of the scan ends: the summary line is printed from the counters
(`EXIT_SUCCESS`), or `fgets_error` is called with an error code, which writes
to the standard error and exits with `EXIT_FAILURE` before any summary. -/
inductive Outcome where
  | summary (c : Counters)
  | fgets_error (error_code : Nat)
deriving DecidableEq

/-- What the four `fgets` calls of one loop iteration give: the first call
returned `NULL` (`eof`), the call for the 2nd, 3rd or 4th line returned `NULL`
(`missing`), or all four succeeded, leaving the fourth buffer in `line`. -/
inductive Step where
  | eof
  | missing (error_code : Nat)
  | record (line : List Byte) (rest : List Byte)
deriving DecidableEq

/-! ## The C library functions used by the scan -/

/-- The bytes stored by `fgets` when at most `n` bytes may be stored, paired
with the unread rest of the stream: reading stops after a newline, at the end
of the stream, or when `n` bytes are stored. -/
def fgetsAux : Nat → List Byte → List Byte × List Byte
  | 0, s => ([], s)
  | _ + 1, [] => ([], [])
  | n + 1, c :: s =>
    if c = 10 then ([c], s)
    else (c :: (fgetsAux n s).1, (fgetsAux n s).2)

/-- Model of `fgets(line, size, stdin)`: `none` is the `NULL` returned at the
end of the stream, otherwise the string stored in `line` (at most `size - 1`
bytes) and the unread rest of the stream. -/
def fgets (size : Nat) (s : List Byte) : Option (List Byte × List Byte) :=
  match s with
  | [] => none
  | _ :: _ => some (fgetsAux (size - 1) s)

/-- Model of `strlen`: the number of bytes before the first NUL byte. -/
def strlen (line : List Byte) : Nat :=
  (line.takeWhile (fun b => b ≠ 0)).length

/-! ## The scan of `ns0007.c` -/

/-- The value of `line[i]` as a `char`: negative for bytes above 127 where
plain `char` is signed. -/
def charValue (charSigned : Bool) (b : Byte) : Int :=
  if charSigned = true ∧ 128 ≤ b.val then (b.val : Int) - 256 else (b.val : Int)

/-- Conversion of an `int` to `unsigned`. -/
def toUnsigned (v : Int) : Nat :=
  (v % 4294967296).toNat

/-- The value of `(unsigned)line[i] - 33`, computed in `unsigned` arithmetic. -/
def qscore (charSigned : Bool) (b : Byte) : Nat :=
  (toUnsigned (charValue charSigned b) + 4294967296 - 33) % 4294967296

/-- The test `((unsigned)line[i] - 33) >= minimal_score`. -/
def highScored (charSigned : Bool) (minimal_score : Nat) (b : Byte) : Bool :=
  decide (minimal_score ≤ qscore charSigned b)

/-- The body of the `for` loop, run over `line[0]`, ..., `line[l - 1]`:
`count_bases++` for each byte that passes the test. -/
def countLoop (charSigned : Bool) (minimal_score : Nat) (count_bases : Nat)
    (bytes : List Byte) : Nat :=
  bytes.foldl
    (fun n b => if highScored charSigned minimal_score b then (n + 1) % 18446744073709551616 else n)
    count_bases

/-- The statements after the fourth `fgets` of an iteration:
`l = strlen(line) - 1; count_all += l;` the `for` loop, and `count_reads++`. -/
def accumulate (charSigned : Bool) (minimal_score : Nat) (c : Counters)
    (line : List Byte) : Counters :=
  let l : Int := (strlen line : Int) - 1
  { count_all := (((c.count_all : Int) + l) % 18446744073709551616).toNat
    count_bases := countLoop charSigned minimal_score c.count_bases (line.take l.toNat)
    count_reads := (c.count_reads + 1) % 18446744073709551616 }

/-- The four `fgets` calls of one iteration of the `while` loop. -/
def readRecord (s : List Byte) : Step :=
  match fgets MAX_CHAR s with
  | none => .eof
  | some (_, s1) =>
    match fgets MAX_CHAR s1 with
    | none => .missing 2
    | some (_, s2) =>
      match fgets MAX_CHAR s2 with
      | none => .missing 3
      | some (_, s3) =>
        match fgets MAX_CHAR s3 with
        | none => .missing 4
        | some (line, s4) => .record line s4

/-- The `while` loop of `main`, with one unit of fuel per iteration; `none`
means the fuel ran out. -/
def scanLoop (charSigned : Bool) (minimal_score : Nat) :
    Nat → List Byte → Counters → Option Outcome
  | 0, _, _ => none
  | fuel + 1, s, c =>
    match readRecord s with
    | .eof => some (.summary c)
    | .missing k => some (.fgets_error k)
    | .record line rest =>
      scanLoop charSigned minimal_score fuel rest (accumulate charSigned minimal_score c line)

/-- The counters as initialised in `main`. -/
def initial : Counters :=
  { count_reads := 0, count_bases := 0, count_all := 0 }

/-- The scan of `ns0007.c` from label `read_data` on: the loop is run on the
whole input from the zero counters.  Every iteration consumes input, so
`input.length + 1` iterations always suffice (`scan_total`). -/
def scan (charSigned : Bool) (minimal_score : Nat) (input : List Byte) : Option Outcome :=
  scanLoop charSigned minimal_score (input.length + 1) input initial

/-- The state of the scan after `k` records were processed: the unread input
and the counters; `none` when the scan ended before. -/
def stateAfter (charSigned : Bool) (minimal_score : Nat) :
    Nat → List Byte → Counters → Option (List Byte × Counters)
  | 0, s, c => some (s, c)
  | k + 1, s, c =>
    match readRecord s with
    | .record line rest =>
      stateAfter charSigned minimal_score k rest (accumulate charSigned minimal_score c line)
    | _ => none

/-- The line printed by `fprintf(stdout, "%llu\t%llu\t%llu\n", ...)`. -/
def summaryLine (c : Counters) : String :=
  toString c.count_reads ++ "\t" ++ toString c.count_bases ++ "\t" ++ toString c.count_all ++ "\n"

/-- What a run writes to the standard output. -/
def stdout : Outcome → String
  | .summary c => summaryLine c
  | .fgets_error _ => ""

/-! ## Inputs -/

/-- The bytes of an ASCII string. -/
def ascii (s : String) : List Byte :=
  s.toList.map (fun ch => Fin.ofNat ch.toNat)

/-- A FASTQ record: the contents of its four lines, line terminators excluded. -/
structure FastqRecord where
  header : List Byte
  sequence : List Byte
  separator : List Byte
  quality : List Byte
deriving DecidableEq

/-- The bytes of a complete record: each of the four lines followed by a newline. -/
def FastqRecord.bytes (r : FastqRecord) : List Byte :=
  r.header ++ 10 :: (r.sequence ++ 10 :: (r.separator ++ 10 :: (r.quality ++ [10])))

/-- The input made of the given complete records, in order. -/
def fastq : List FastqRecord → List Byte
  | [] => []
  | r :: rs => r.bytes ++ fastq rs

/-- Each of the four fields is the content of one line: it holds no newline. -/
def FastqRecord.Framed (r : FastqRecord) : Prop :=
  (10 : Byte) ∉ r.header ∧ (10 : Byte) ∉ r.sequence ∧ (10 : Byte) ∉ r.separator ∧
    (10 : Byte) ∉ r.quality

/-- Each of the four lines has at most `n` characters before its newline. -/
def FastqRecord.Within (n : Nat) (r : FastqRecord) : Prop :=
  r.header.length ≤ n ∧ r.sequence.length ≤ n ∧ r.separator.length ≤ n ∧ r.quality.length ≤ n

instance (r : FastqRecord) : Decidable r.Framed := by
  unfold FastqRecord.Framed; infer_instance

instance (n : Nat) (r : FastqRecord) : Decidable (r.Within n) := by
  unfold FastqRecord.Within; infer_instance

/-- The lines of an input, terminators excluded: every newline ends a line,
and bytes after the last newline form a last, unterminated line. -/
def lines : List Byte → List (List Byte)
  | [] => []
  | c :: s =>
    if c = 10 then [] :: lines s
    else
      match lines s with
      | [] => [[c]]
      | l :: ls => (c :: l) :: ls

/-- The decoded score of a quality character as the specification gives it:
`ord(c) - 33`, in unsigned 32-bit arithmetic. -/
def decodedScore (c : Byte) : Nat :=
  (c.val + 4294967296 - 33) % 4294967296

/-- The number of characters of the quality lines whose decoded score is at
least the threshold. -/
def highQualityCount (t : Nat) : List FastqRecord → Nat
  | [] => 0
  | r :: rs => r.quality.countP (fun c => decide (t ≤ decodedScore c)) + highQualityCount t rs

/-- The total length of the quality lines. -/
def qualityLength : List FastqRecord → Nat
  | [] => 0
  | r :: rs => r.quality.length + qualityLength rs

/-- The quality buffers of complete records, as the fourth `fgets` stores them. -/
def qualityBuffers (rs : List FastqRecord) : List (List Byte) :=
  rs.map (fun r => r.quality ++ [10])

/-- All three counters hold values of an `unsigned long long`. -/
def Counters.InRange (c : Counters) : Prop :=
  c.count_reads < 18446744073709551616 ∧ c.count_bases < 18446744073709551616 ∧
    c.count_all < 18446744073709551616

/-! ## Sample inputs -/

/-- A record of two bases with the quality string `5I`. -/
def read5I : FastqRecord :=
  { header := ascii "@r1", sequence := ascii "AC", separator := ascii "+", quality := ascii "5I" }

/-- A record of four bases with the quality string `IIII`. -/
def readIIII : FastqRecord :=
  { header := ascii "@r2", sequence := ascii "ACGT", separator := ascii "+",
    quality := ascii "IIII" }

/-- A long read: one record of `n` bases `A`, each with quality character `I`. -/
def longRead (n : Nat) : FastqRecord :=
  { header := ascii "@long", sequence := List.replicate n 65, separator := ascii "+",
    quality := List.replicate n 73 }

/-- A record whose quality line is a single NUL byte. -/
def nulRead : FastqRecord :=
  { header := ascii "@r3", sequence := ascii "A", separator := ascii "+", quality := [0] }

/-- A record with the quality string `!!!!`. -/
def readBang : FastqRecord :=
  { header := ascii "@r4", sequence := ascii "ACGT", separator := ascii "+",
    quality := ascii "!!!!" }

/-! ## The command line of `ns0007.c`

An argument string is the list of its bytes before the terminating NUL.  The
functions `isdigit`, `strtol` and `getopt` are those of the C library, in the
"C" locale, with `long` 64 bits wide; `getopt` is modelled as POSIX describes
it (it stops at the first argument that is not an option). -/

/-- The value of `MIN_QUAL_SCORE` in `ns0007.c`. -/
def MIN_QUAL_SCORE : Nat := 16

/-- Model of `isdigit` on the value of a `char`. -/
def isdigit (v : Int) : Bool :=
  decide (48 ≤ v ∧ v ≤ 57)

/-- Model of `isspace` in the "C" locale: space, `\t`, `\n`, `\v`, `\f`, `\r`. -/
def isspace (b : Byte) : Bool :=
  decide (b.val = 32 ∨ (9 ≤ b.val ∧ b.val ≤ 13))

/-- The value of the longest run of decimal digits at the start of a string,
continuing from the value `acc` of the digits already read. -/
def digitsValue (acc : Nat) : List Byte → Nat
  | [] => acc
  | c :: cs =>
    if 48 ≤ c.val ∧ c.val ≤ 57 then digitsValue (10 * acc + (c.val - 48)) cs else acc

/-- Model of `strtol(s, NULL, 10)`: white space is skipped, an optional sign
is read, then the longest run of decimal digits (none gives 0); a value out of
the range of `long` is replaced by `LONG_MIN` or `LONG_MAX`. -/
def strtol (s : List Byte) : Int :=
  let body := s.dropWhile isspace
  let v : Int :=
    match body with
    | [] => 0
    | c :: cs =>
      if c = 45 then -(digitsValue 0 cs : Int)
      else if c = 43 then (digitsValue 0 cs : Int)
      else (digitsValue 0 body : Int)
  if v < -9223372036854775808 then -9223372036854775808
  else if 9223372036854775807 < v then 9223372036854775807
  else v

/-- The conversion `(unsigned short)` of a `long`. -/
def toUnsignedShort (v : Int) : Nat :=
  (v % 65536).toNat

/-- The function `is_small_int` of `ns0007.c`. -/
def is_small_int (charSigned : Bool) (first_arg : List Byte) : Nat :=
  let length := strlen first_arg
  if length = 1 then
    if isdigit (charValue charSigned (first_arg.getD 0 0)) then 1 else 0
  else if length = 2 then
    if isdigit (charValue charSigned (first_arg.getD 0 0)) &&
        isdigit (charValue charSigned (first_arg.getD 1 0)) then 1 else 0
  else 0

/-- What the argument processing of `main` in `ns0007.c` leads to: the usage
text (`-h`) or the version (`-v`) is printed and `main` returns, or the scan
is run with a minimal score. -/
inductive Arguments where
  | usage
  | version
  | run (minimal_score : Nat)
deriving DecidableEq

/-- What the option characters of one argument lead to. -/
inductive WordOptions where
  | usage
  | version
  | done (minimal_score : Nat)
  | needsArgument (minimal_score : Nat)
deriving DecidableEq

/-- The `getopt` calls and the `switch` of `main` on the option characters of
one argument (the characters after its `-`), for the option string `hq:v`:
`h` and `v` print and return; `q` takes the rest of the argument as its
value, or the next argument when nothing is left; any other character is
reported as unknown and skipped. -/
def optionsInWord (minimal_score : Nat) : List Byte → WordOptions
  | [] => .done minimal_score
  | c :: cs =>
    if c = 104 then .usage
    else if c = 118 then .version
    else if c = 113 then
      match cs with
      | [] => .needsArgument minimal_score
      | _ :: _ => .done (toUnsignedShort (strtol cs))
    else optionsInWord minimal_score cs

/-- The loop `while ((opt = getopt(argc, argv, "hq:v")) != -1)` of `main` with
its `switch`, on the arguments not yet read.  An argument that does not start
with `-`, the argument `-` and the argument `--` end the options; a `-q`
without a value is reported and changes nothing.  This is the `getopt` of
POSIX; the `getopt` of glibc also reads options that follow an argument which
is not an option, and moves such arguments to the end of `argv`.  The two
agree when every option precedes the first argument that is not one. -/
def optionLoop (minimal_score : Nat) : List (List Byte) → Arguments
  | [] => .run minimal_score
  | w :: ws =>
    match w with
    | c0 :: c1 :: cs =>
      if c0 = 45 then
        if c1 = 45 ∧ cs = [] then .run minimal_score
        else
          match optionsInWord minimal_score (c1 :: cs) with
          | .usage => .usage
          | .version => .version
          | .done s => optionLoop s ws
          | .needsArgument s =>
            match ws with
            | [] => .run s
            | a :: rest => optionLoop (toUnsignedShort (strtol a)) rest
      else .run minimal_score
    | _ => .run minimal_score

/-- The argument processing of `main` in `ns0007.c`, on `argv[1]`, ...,
`argv[argc - 1]`: with no argument the default score is kept; a small integer
as first argument is the score, and then no option is read; otherwise the
options are read. -/
def ns0007_arguments (charSigned : Bool) (argv : List (List Byte)) : Arguments :=
  match argv with
  | [] => .run MIN_QUAL_SCORE
  | first :: _ =>
    if is_small_int charSigned first ≠ 0 then .run (toUnsignedShort (strtol first))
    else optionLoop MIN_QUAL_SCORE argv

/-- Where the scan reads its input from. -/
inductive Source where
  | standardInput
  | file (path : List Byte)
deriving DecidableEq

/-- The stream chosen by `main` in `ns0007.c` when it goes on to the scan (it
returns before for `-h` and `-v`): with no argument the standard input;
otherwise `fopen(argv[argc - 1], "r")` is tried, and the standard input is
reopened on that file when it succeeds.  `files` gives the contents of the
files that can be opened for reading. -/
def ns0007_source (files : List Byte → Option (List Byte)) (argv : List (List Byte)) :
    Source :=
  match argv.getLast? with
  | none => .standardInput
  | some path =>
    match files path with
    | some _ => .file path
    | none => .standardInput

/-- The bytes of the chosen stream. -/
def sourceBytes (files : List Byte → Option (List Byte)) (stdin : List Byte) :
    Source → List Byte
  | .standardInput => stdin
  | .file path => (files path).getD []

/-- How `main` of `ns0007.c` ends. -/
inductive MainResult where
  | usage
  | version
  | scanned (outcome : Option Outcome)
deriving DecidableEq

/-- The function `main` of `ns0007.c`. -/
def ns0007_main (charSigned : Bool) (files : List Byte → Option (List Byte))
    (argv : List (List Byte)) (stdin : List Byte) : MainResult :=
  match ns0007_arguments charSigned argv with
  | .usage => .usage
  | .version => .version
  | .run minimal_score =>
    .scanned (scan charSigned minimal_score (sourceBytes files stdin (ns0007_source files argv)))

/-! ## The program `jf0007.c` -/

/-- The value of `MAX_CHAR` in `jf0007.c`. -/
def JF_MAX_CHAR : Nat := 2048

/-- The value of `MIN_QUAL_SCORE` in `jf0007.c`. -/
def JF_MIN_QUAL_SCORE : Nat := 20

/-- The two counters of `main` in `jf0007.c`. -/
structure JfCounters where
  count_base : Nat
  count_line : Nat
deriving DecidableEq

/-- How a run of `jf0007` ends. -/
inductive JfOutcome where
  | summary (c : JfCounters)
  | fgets_error (error_code : Nat)
deriving DecidableEq

/-- The four `fgets` calls of one iteration of the loop of `jf0007.c`. -/
def jfReadRecord (s : List Byte) : Step :=
  match fgets JF_MAX_CHAR s with
  | none => .eof
  | some (_, s1) =>
    match fgets JF_MAX_CHAR s1 with
    | none => .missing 2
    | some (_, s2) =>
      match fgets JF_MAX_CHAR s2 with
      | none => .missing 3
      | some (_, s3) =>
        match fgets JF_MAX_CHAR s3 with
        | none => .missing 4
        | some (line, s4) => .record line s4

/-- The statements after the fourth `fgets` in `jf0007.c`:
`l = strlen(line) - 1;` the `for` loop, and `count_line++`. -/
def jfAccumulate (charSigned : Bool) (minimal_score : Nat) (c : JfCounters)
    (line : List Byte) : JfCounters :=
  let l : Int := (strlen line : Int) - 1
  { count_base := countLoop charSigned minimal_score c.count_base (line.take l.toNat)
    count_line := (c.count_line + 1) % 18446744073709551616 }

/-- The `while` loop of `main` in `jf0007.c`, with one unit of fuel per
iteration. -/
def jfScanLoop (charSigned : Bool) (minimal_score : Nat) :
    Nat → List Byte → JfCounters → Option JfOutcome
  | 0, _, _ => none
  | fuel + 1, s, c =>
    match jfReadRecord s with
    | .eof => some (.summary c)
    | .missing k => some (.fgets_error k)
    | .record line rest =>
      jfScanLoop charSigned minimal_score fuel rest (jfAccumulate charSigned minimal_score c line)

/-- The scan of `jf0007.c` on the whole input, from the zero counters. -/
def jfScan (charSigned : Bool) (minimal_score : Nat) (input : List Byte) : Option JfOutcome :=
  jfScanLoop charSigned minimal_score (input.length + 1) input
    { count_base := 0, count_line := 0 }

/-- The minimal score chosen by `main` in `jf0007.c`: `argv[1]` converted when
there is an argument, the default otherwise. -/
def jf0007_minimal_score (argv : List (List Byte)) : Nat :=
  match argv with
  | [] => JF_MIN_QUAL_SCORE
  | first :: _ => toUnsignedShort (strtol first)

/-- The function `main` of `jf0007.c`, which always reads the standard input. -/
def jf0007_main (charSigned : Bool) (argv : List (List Byte)) (stdin : List Byte) :
    Option JfOutcome :=
  jfScan charSigned (jf0007_minimal_score argv) stdin

/-- What a run of `jf0007` writes to the standard output:
`"%llu bases in %llu sequences\n"` after a completed scan. -/
def jfStdout : JfOutcome → String
  | .summary c => toString c.count_base ++ " bases in " ++ toString c.count_line ++ " sequences\n"
  | .fgets_error _ => ""

/-- What a run of `jf0007` reports, seen as the part of an `ns0007` outcome
that `jf0007` also has: the high-scored bases and the reads. -/
def jfView : Outcome → JfOutcome
  | .summary c => .summary { count_base := c.count_bases, count_line := c.count_reads }
  | .fgets_error k => .fgets_error k

/-! ## Further inputs -/

/-- The bytes of a record whose last line lacks its line terminator. -/
def FastqRecord.unterminated (r : FastqRecord) : List Byte :=
  r.header ++ 10 :: (r.sequence ++ 10 :: (r.separator ++ 10 :: r.quality))

/-- The number of quality-line characters of complete records that pass the
test of the `for` loop. -/
def highScoredCount (charSigned : Bool) (t : Nat) (rs : List FastqRecord) : Nat :=
  (rs.map (fun r => r.quality.countP (highScored charSigned t))).sum

/-- The first `k` successive `fgets` calls on an input: the buffers they store
and the unread rest, or `none` when one of them returns `NULL`. -/
def fgetsTimes : Nat → List Byte → Option (List (List Byte) × List Byte)
  | 0, s => some ([], s)
  | k + 1, s =>
    match fgets MAX_CHAR s with
    | none => none
    | some (b, r) =>
      match fgetsTimes k r with
      | none => none
      | some (bs, rest) => some (b :: bs, rest)

/-- A record whose header line has `n` characters `@`. -/
def longHeader (n : Nat) : FastqRecord :=
  { header := List.replicate n 64, sequence := ascii "ACGT", separator := ascii "+",
    quality := ascii "IIII" }

/-- A directory that holds one readable file, with the given name and
contents. -/
def oneFile (name contents : List Byte) (path : List Byte) : Option (List Byte) :=
  if path = name then some contents else none

/-- A directory in which no file can be opened. -/
def noFiles (_ : List Byte) : Option (List Byte) := none

/-- The number denoted by a non-empty string of decimal digits, `none` for any
other string. -/
def denotedNatural (ds : List Byte) : Option Nat :=
  if ds ≠ [] ∧ ∀ c ∈ ds, 48 ≤ c.val ∧ c.val ≤ 57 then
    some (ds.foldl (fun n c => 10 * n + (c.val - 48)) 0)
  else none

/-- The integer denoted by a string of decimal digits with an optional sign,
`none` for any other string. -/
def denotedInteger (s : List Byte) : Option Int :=
  match s with
  | [] => none
  | c :: cs =>
    if c = 45 then
      match denotedNatural cs with
      | some v => some (-(v : Int))
      | none => none
    else if c = 43 then
      match denotedNatural cs with
      | some v => some (v : Int)
      | none => none
    else
      match denotedNatural s with
      | some v => some (v : Int)
      | none => none

/-! ## The library functions: basic facts -/

theorem fgetsAux_append (n : Nat) (s : List Byte) :
    (fgetsAux n s).1 ++ (fgetsAux n s).2 = s := by
  induction s generalizing n with
  | nil => cases n <;> simp [fgetsAux]
  | cons c s ih =>
    cases n with
    | zero => simp [fgetsAux]
    | succ n =>
      by_cases h : c = 10
      · simp [fgetsAux, h]
      · simp [fgetsAux, h, ih n]

theorem fgetsAux_ne_nil (n : Nat) (c : Byte) (s : List Byte) :
    (fgetsAux (n + 1) (c :: s)).1 ≠ [] := by
  by_cases h : c = 10 <;> simp [fgetsAux, h]

theorem fgets_eq_some {s b r : List Byte} (h : fgets MAX_CHAR s = some (b, r)) :
    b ++ r = s ∧ b ≠ [] := by
  cases s with
  | nil => simp [fgets] at h
  | cons c s =>
    simp only [fgets, MAX_CHAR, Option.some.injEq] at h
    have h1 := fgetsAux_append 4095 (c :: s)
    have h2 := fgetsAux_ne_nil 4094 c s
    rw [h] at h1 h2
    exact ⟨h1, h2⟩

theorem fgetsAux_line (n : Nat) (l rest : List Byte) (hl : (10 : Byte) ∉ l)
    (hn : l.length < n) : fgetsAux n (l ++ 10 :: rest) = (l ++ [10], rest) := by
  induction l generalizing n with
  | nil =>
    cases n with
    | zero => simp at hn
    | succ n => simp [fgetsAux]
  | cons c l ih =>
    cases n with
    | zero => simp at hn
    | succ n =>
      have hc : c ≠ 10 := fun h => hl (by simp [h])
      have hl2 : (10 : Byte) ∉ l := fun h => hl (by simp [h])
      have := ih n hl2 (by simpa using hn)
      simp [fgetsAux, hc, this]

theorem fgetsAux_full (n : Nat) (l rest : List Byte) (hl : (10 : Byte) ∉ l)
    (hn : l.length = n) : fgetsAux n (l ++ rest) = (l, rest) := by
  induction l generalizing n with
  | nil => subst hn; simp [fgetsAux]
  | cons c l ih =>
    cases n with
    | zero => simp at hn
    | succ n =>
      have hc : c ≠ 10 := fun h => hl (by simp [h])
      have hl2 : (10 : Byte) ∉ l := fun h => hl (by simp [h])
      have := ih n hl2 (by simpa using hn)
      simp [fgetsAux, hc, this]

theorem fgets_line (l rest : List Byte) (hl : (10 : Byte) ∉ l) (hn : l.length ≤ 4094) :
    fgets MAX_CHAR (l ++ 10 :: rest) = some (l ++ [10], rest) := by
  have h := fgetsAux_line 4095 l rest hl (by omega)
  cases l with
  | nil => simpa [fgets, MAX_CHAR] using h
  | cons c l => simpa [fgets, MAX_CHAR] using h

theorem fgets_full (l rest : List Byte) (hl : (10 : Byte) ∉ l) (hn : l.length = 4095) :
    fgets MAX_CHAR (l ++ rest) = some (l, rest) := by
  have h := fgetsAux_full 4095 l rest hl hn
  cases l with
  | nil => simp at hn
  | cons c l => simpa [fgets, MAX_CHAR] using h

theorem readRecord_bytes (r : FastqRecord) (rest : List Byte) (hf : r.Framed)
    (hw : r.Within 4094) :
    readRecord (r.bytes ++ rest) = .record (r.quality ++ [10]) rest := by
  obtain ⟨f1, f2, f3, f4⟩ := hf
  obtain ⟨w1, w2, w3, w4⟩ := hw
  have e : r.bytes ++ rest = r.header ++ 10 :: (r.sequence ++ 10 :: (r.separator ++ 10 ::
      (r.quality ++ 10 :: rest))) := by
    simp [FastqRecord.bytes, List.append_assoc]
  rw [e]
  simp only [readRecord, fgets_line _ _ f1 w1, fgets_line _ _ f2 w2, fgets_line _ _ f3 w3,
    fgets_line _ _ f4 w4]

theorem strlen_eq_length (line : List Byte) (h : (0 : Byte) ∉ line) :
    strlen line = line.length := by
  unfold strlen
  congr 1
  rw [List.takeWhile_eq_self_iff]
  intro b hb
  have hne : b ≠ 0 := fun e => h (e ▸ hb)
  simpa using hne

theorem countLoop_eq (sgn : Bool) (t : Nat) (cb : Nat) (l : List Byte)
    (h : cb < 18446744073709551616) :
    countLoop sgn t cb l = (cb + l.countP (highScored sgn t)) % 18446744073709551616 := by
  induction l generalizing cb with
  | nil => simp [countLoop]; omega
  | cons b l ih =>
    unfold countLoop at ih ⊢
    rw [List.foldl_cons]
    by_cases hb : highScored sgn t b = true
    · rw [if_pos hb, ih _ (Nat.mod_lt _ (by norm_num)), List.countP_cons_of_pos _ _ hb]
      omega
    · rw [if_neg hb, ih _ h, List.countP_cons_of_neg _ _ hb]

/-! ## One iteration on a complete record -/

theorem accumulate_terminated (sgn : Bool) (t : Nat) (c : Counters) (q : List Byte)
    (h0 : (0 : Byte) ∉ q) (hc : c.count_bases < 18446744073709551616) :
    accumulate sgn t c (q ++ [10]) =
      { count_reads := (c.count_reads + 1) % 18446744073709551616
        count_bases := (c.count_bases + q.countP (highScored sgn t)) % 18446744073709551616
        count_all := (c.count_all + q.length) % 18446744073709551616 } := by
  have hs : strlen (q ++ [10]) = q.length + 1 := by
    rw [strlen_eq_length]
    · simp
    · intro h
      rcases List.mem_append.1 h with h | h
      · exact h0 h
      · simp at h
  have hl : ((strlen (q ++ [10]) : Int) - 1) = (q.length : Int) := by
    rw [hs]; push_cast; omega
  unfold accumulate
  simp only [hl, Int.toNat_ofNat, List.take_left, countLoop_eq sgn t _ q hc]
  congr 1

theorem accumulate_reads (sgn : Bool) (t : Nat) (c : Counters) (line : List Byte) :
    (accumulate sgn t c line).count_reads = (c.count_reads + 1) % 18446744073709551616 := rfl

theorem readRecord_nil : readRecord [] = .eof := rfl

theorem scanLoop_fastq (sgn : Bool) (t : Nat) (rs : List FastqRecord) :
    ∀ (fuel : Nat) (c : Counters), rs.length < fuel →
      (∀ r ∈ rs, r.Framed) → (∀ r ∈ rs, r.Within 4094) →
      scanLoop sgn t fuel (fastq rs) c =
        some (.summary ((qualityBuffers rs).foldl (accumulate sgn t) c)) := by
  induction rs with
  | nil =>
    intro fuel c hfuel _ _
    cases fuel with
    | zero => simp at hfuel
    | succ fuel => simp [scanLoop, fastq, readRecord_nil, qualityBuffers]
  | cons r rs ih =>
    intro fuel c hfuel hf hw
    cases fuel with
    | zero => simp at hfuel
    | succ fuel =>
      have h1 := readRecord_bytes r (fastq rs) (hf r (by simp)) (hw r (by simp))
      simp only [scanLoop, fastq, h1]
      rw [ih fuel _ (by simpa using hfuel) (fun x hx => hf x (by simp [hx]))
        (fun x hx => hw x (by simp [hx]))]
      simp [qualityBuffers]

theorem length_le_fastq (rs : List FastqRecord) : rs.length ≤ (fastq rs).length := by
  induction rs with
  | nil => simp
  | cons r rs ih =>
    simp only [fastq, FastqRecord.bytes, List.length_append, List.length_cons]
    simp only [List.length_cons] at ih ⊢
    omega

theorem qualityLength_le_fastq (rs : List FastqRecord) :
    qualityLength rs + rs.length ≤ (fastq rs).length := by
  induction rs with
  | nil => simp [qualityLength]
  | cons r rs ih =>
    simp only [fastq, FastqRecord.bytes, List.length_append, List.length_cons, qualityLength,
      List.length_nil]
    omega

theorem scan_fastq (sgn : Bool) (t : Nat) (rs : List FastqRecord)
    (hf : ∀ r ∈ rs, r.Framed) (hw : ∀ r ∈ rs, r.Within 4094) :
    scan sgn t (fastq rs) =
      some (.summary ((qualityBuffers rs).foldl (accumulate sgn t) initial)) :=
  scanLoop_fastq sgn t rs _ _ (Nat.lt_succ_of_le (length_le_fastq rs)) hf hw

theorem foldl_accumulate_reads (sgn : Bool) (t : Nat) (ls : List (List Byte)) :
    ∀ c : Counters, c.count_reads < 18446744073709551616 →
      (ls.foldl (accumulate sgn t) c).count_reads =
        (c.count_reads + ls.length) % 18446744073709551616 := by
  induction ls with
  | nil => intro c hc; simp; omega
  | cons l ls ih =>
    intro c hc
    rw [List.foldl_cons, ih _ (by rw [accumulate_reads]; omega), accumulate_reads,
      List.length_cons]
    omega

theorem foldl_accumulate_terminated (sgn : Bool) (t : Nat) (rs : List FastqRecord)
    (h0 : ∀ r ∈ rs, (0 : Byte) ∉ r.quality) :
    ∀ c : Counters, c.InRange →
      (qualityBuffers rs).foldl (accumulate sgn t) c =
        { count_reads := (c.count_reads + rs.length) % 18446744073709551616
          count_bases := (c.count_bases +
            (rs.map (fun r => r.quality.countP (highScored sgn t))).sum) % 18446744073709551616
          count_all := (c.count_all + qualityLength rs) % 18446744073709551616 } := by
  induction rs with
  | nil =>
    intro c hc
    obtain ⟨h1, h2, h3⟩ := hc
    simp only [qualityBuffers, List.map_nil, List.foldl_nil, List.length_nil, List.sum_nil,
      qualityLength, Nat.add_zero, Nat.mod_eq_of_lt h1, Nat.mod_eq_of_lt h2, Nat.mod_eq_of_lt h3]
  | cons r rs ih =>
    intro c hc
    obtain ⟨h1, h2, h3⟩ := hc
    simp only [qualityBuffers, List.map_cons, List.foldl_cons]
    rw [accumulate_terminated sgn t c r.quality (h0 r (by simp)) h2]
    have key := ih (fun x hx => h0 x (by simp [hx]))
      { count_reads := (c.count_reads + 1) % 18446744073709551616
        count_bases := (c.count_bases + r.quality.countP (highScored sgn t)) % 18446744073709551616
        count_all := (c.count_all + r.quality.length) % 18446744073709551616 }
      ⟨Nat.mod_lt _ (by norm_num), Nat.mod_lt _ (by norm_num), Nat.mod_lt _ (by norm_num)⟩
    simp only [qualityBuffers] at key
    rw [key]
    simp only [List.sum_cons, List.length_cons, qualityLength]
    congr 1 <;> omega

/-! ## One iteration on an arbitrary input -/

theorem readRecord_eq_record {s line rest : List Byte}
    (h : readRecord s = .record line rest) :
    ∃ b1 b2 b3 : List Byte, b1 ≠ [] ∧ b2 ≠ [] ∧ b3 ≠ [] ∧ line ≠ [] ∧
      s = b1 ++ (b2 ++ (b3 ++ (line ++ rest))) := by
  unfold readRecord at h
  cases h1 : fgets MAX_CHAR s with
  | none => simp [h1] at h
  | some p1 =>
    obtain ⟨b1, s1⟩ := p1
    simp only [h1] at h
    cases h2 : fgets MAX_CHAR s1 with
    | none => simp [h2] at h
    | some p2 =>
      obtain ⟨b2, s2⟩ := p2
      simp only [h2] at h
      cases h3 : fgets MAX_CHAR s2 with
      | none => simp [h3] at h
      | some p3 =>
        obtain ⟨b3, s3⟩ := p3
        simp only [h3] at h
        cases h4 : fgets MAX_CHAR s3 with
        | none => simp [h4] at h
        | some p4 =>
          obtain ⟨b4, s4⟩ := p4
          simp only [h4, Step.record.injEq] at h
          obtain ⟨e1, e2⟩ := h
          subst e1 e2
          obtain ⟨a1, n1⟩ := fgets_eq_some h1
          obtain ⟨a2, n2⟩ := fgets_eq_some h2
          obtain ⟨a3, n3⟩ := fgets_eq_some h3
          obtain ⟨a4, n4⟩ := fgets_eq_some h4
          refine ⟨b1, b2, b3, n1, n2, n3, n4, ?_⟩
          rw [a4, a3, a2, a1]

theorem length_pos_of_ne_nil {l : List Byte} (h : l ≠ []) : 0 < l.length :=
  List.length_pos.2 h

theorem readRecord_length {s line rest : List Byte}
    (h : readRecord s = .record line rest) :
    0 < line.length ∧ line.length + rest.length + 3 ≤ s.length := by
  obtain ⟨b1, b2, b3, n1, n2, n3, n4, e⟩ := readRecord_eq_record h
  have p1 := length_pos_of_ne_nil n1
  have p2 := length_pos_of_ne_nil n2
  have p3 := length_pos_of_ne_nil n3
  have p4 := length_pos_of_ne_nil n4
  subst e
  simp only [List.length_append]
  omega

theorem readRecord_mem {s line rest : List Byte}
    (h : readRecord s = .record line rest) :
    (∀ b ∈ line, b ∈ s) ∧ (∀ b ∈ rest, b ∈ s) := by
  obtain ⟨b1, b2, b3, _, _, _, _, e⟩ := readRecord_eq_record h
  subst e
  constructor <;> intro b hb <;> simp [hb]

theorem scanLoop_fuel (sgn : Bool) (t : Nat) :
    ∀ (fuel1 fuel2 : Nat) (s : List Byte) (c : Counters),
      s.length < fuel1 → s.length < fuel2 →
      scanLoop sgn t fuel1 s c = scanLoop sgn t fuel2 s c := by
  intro fuel1
  induction fuel1 with
  | zero => intro fuel2 s c h1; simp at h1
  | succ fuel1 ih =>
    intro fuel2 s c h1 h2
    cases fuel2 with
    | zero => simp at h2
    | succ fuel2 =>
      simp only [scanLoop]
      cases hr : readRecord s with
      | eof => rfl
      | missing k => rfl
      | record line rest =>
        have hlen := readRecord_length hr
        exact ih fuel2 rest _ (by omega) (by omega)

theorem scanLoop_record (sgn : Bool) (t : Nat) {s line rest : List Byte} (c : Counters)
    (fuel : Nat) (hr : readRecord s = .record line rest) (hfuel : s.length < fuel) :
    scanLoop sgn t fuel s c =
      scanLoop sgn t (rest.length + 1) rest (accumulate sgn t c line) := by
  cases fuel with
  | zero => simp at hfuel
  | succ fuel =>
    have hlen := readRecord_length hr
    simp only [scanLoop, hr]
    exact scanLoop_fuel sgn t fuel (rest.length + 1) rest _ (by omega) (by omega)

theorem scanLoop_nil (sgn : Bool) (t : Nat) (c : Counters) (fuel : Nat) :
    scanLoop sgn t (fuel + 1) [] c = some (.summary c) := rfl

/-- The scan always ends: the fuel given by `scan` is never used up. -/
theorem scanLoop_total (sgn : Bool) (t : Nat) :
    ∀ (fuel : Nat) (s : List Byte) (c : Counters), s.length < fuel →
      ∃ o, scanLoop sgn t fuel s c = some o := by
  intro fuel
  induction fuel with
  | zero => intro s c h; simp at h
  | succ fuel ih =>
    intro s c h
    simp only [scanLoop]
    cases hr : readRecord s with
    | eof => exact ⟨_, rfl⟩
    | missing k => exact ⟨_, rfl⟩
    | record line rest =>
      have hlen := readRecord_length hr
      exact ih rest _ (by omega)

theorem scan_total (sgn : Bool) (t : Nat) (input : List Byte) :
    ∃ o, scan sgn t input = some o :=
  scanLoop_total sgn t _ input initial (Nat.lt_succ_self _)

/-! ## The decoded score -/

theorem qscore_eq_decodedScore (sgn : Bool) (c : Byte) (h : sgn = true → c.val < 128) :
    qscore sgn c = decodedScore c := by
  have hc : charValue sgn c = (c.val : Int) := by
    unfold charValue
    rw [if_neg]
    rintro ⟨h1, h2⟩
    have := h h1
    omega
  have hlt := c.isLt
  have hu : ((c.val : Int) % 4294967296).toNat = c.val := by omega
  unfold qscore decodedScore toUnsigned
  rw [hc, hu]

theorem sum_countP_eq_highQualityCount (sgn : Bool) (t : Nat) (rs : List FastqRecord)
    (h : ∀ r ∈ rs, ∀ c ∈ r.quality, sgn = true → c.val < 128) :
    (rs.map (fun r => r.quality.countP (highScored sgn t))).sum = highQualityCount t rs := by
  induction rs with
  | nil => rfl
  | cons r rs ih =>
    simp only [List.map_cons, List.sum_cons, highQualityCount]
    have e : r.quality.countP (highScored sgn t) =
        r.quality.countP (fun c => decide (t ≤ decodedScore c)) := by
      apply List.countP_congr
      intro c hc
      simp only [highScored, qscore_eq_decodedScore sgn c (h r (by simp) c hc)]
    rw [ih (fun x hx => h x (by simp [hx])), e]

theorem highQualityCount_le (t : Nat) (rs : List FastqRecord) :
    highQualityCount t rs ≤ qualityLength rs := by
  induction rs with
  | nil => simp [highQualityCount, qualityLength]
  | cons r rs ih =>
    simp only [highQualityCount, qualityLength]
    have := List.countP_le_length (fun c => decide (t ≤ decodedScore c)) (l := r.quality)
    omega

/-! ## Lines that do not fit the buffer -/

theorem readRecord_three_buffers (h a b x rest : List Byte)
    (hh : (10 : Byte) ∉ h) (lh : h.length ≤ 4094)
    (ha : (10 : Byte) ∉ a) (la : a.length = 4095)
    (hb : (10 : Byte) ∉ b) (lb : b.length = 4095)
    (hx : (10 : Byte) ∉ x) (lx : x.length ≤ 4094) :
    readRecord (h ++ 10 :: (a ++ (b ++ (x ++ 10 :: rest)))) = .record (x ++ [10]) rest := by
  simp only [readRecord, fgets_line _ _ hh lh, fgets_full _ _ ha la, fgets_full _ _ hb lb,
    fgets_line _ _ hx lx]

theorem scan_three_buffers (sgn : Bool) (t : Nat) (h p a b x a' b' y : List Byte)
    (hh : (10 : Byte) ∉ h) (lh : h.length ≤ 4094)
    (hp : (10 : Byte) ∉ p) (lp : p.length ≤ 4094)
    (ha : (10 : Byte) ∉ a) (la : a.length = 4095)
    (hb : (10 : Byte) ∉ b) (lb : b.length = 4095)
    (hx : (10 : Byte) ∉ x) (lx : x.length ≤ 4094)
    (ha' : (10 : Byte) ∉ a') (la' : a'.length = 4095)
    (hb' : (10 : Byte) ∉ b') (lb' : b'.length = 4095)
    (hy : (10 : Byte) ∉ y) (ly : y.length ≤ 4094) :
    scan sgn t (fastq [FastqRecord.mk h (a ++ (b ++ x)) p (a' ++ (b' ++ y))]) =
      some (.summary (accumulate sgn t (accumulate sgn t initial (x ++ [10])) (y ++ [10]))) := by
  have e : fastq [FastqRecord.mk h (a ++ (b ++ x)) p (a' ++ (b' ++ y))] =
      h ++ 10 :: (a ++ (b ++ (x ++ 10 :: (p ++ 10 :: (a' ++ (b' ++ (y ++ 10 :: []))))))) := by
    simp [fastq, FastqRecord.bytes, List.append_assoc]
  have r1 := readRecord_three_buffers h a b x (p ++ 10 :: (a' ++ (b' ++ (y ++ 10 :: []))))
    hh lh ha la hb lb hx lx
  have r2 := readRecord_three_buffers p a' b' y [] hp lp ha' la' hb' lb' hy ly
  rw [e]
  unfold scan
  rw [scanLoop_record sgn t _ _ r1 (Nat.lt_succ_self _),
    scanLoop_record sgn t _ _ r2 (Nat.lt_succ_self _)]
  rfl

theorem not_mem_replicate_newline (n : Nat) (c : Byte) (h : c ≠ 10) :
    (10 : Byte) ∉ List.replicate n c := by
  intro hm
  exact h (List.eq_of_mem_replicate hm).symm

/-! ## The counters along the scan of an arbitrary input -/

theorem countLoop_bounds (sgn : Bool) (t : Nat) (cb : Nat) (l : List Byte)
    (h : cb + l.length < 18446744073709551616) :
    countLoop sgn t cb l = cb + l.countP (highScored sgn t) := by
  have h1 := List.countP_le_length (highScored sgn t) (l := l)
  rw [countLoop_eq sgn t cb l (by omega)]
  omega

theorem accumulate_bases (sgn : Bool) (t : Nat) (c : Counters) (line : List Byte)
    (h : c.count_bases + line.length < 18446744073709551616) :
    (accumulate sgn t c line).count_bases =
      c.count_bases +
        (line.take ((strlen line : Int) - 1).toNat).countP (highScored sgn t) := by
  have h1 : (line.take ((strlen line : Int) - 1).toNat).length ≤ line.length := by
    rw [List.length_take]; omega
  exact countLoop_bounds sgn t _ _ (by omega)

theorem strlen_le_length (line : List Byte) : strlen line ≤ line.length := by
  unfold strlen
  exact (List.takeWhile_sublist _).length_le

theorem accumulate_all_of_no_nul (sgn : Bool) (t : Nat) (c : Counters) (line : List Byte)
    (h0 : (0 : Byte) ∉ line) (hne : line ≠ [])
    (h : c.count_all + line.length < 18446744073709551616) :
    (accumulate sgn t c line).count_all = c.count_all + (line.length - 1) := by
  have hs := strlen_eq_length line h0
  have hp := length_pos_of_ne_nil hne
  show (((c.count_all : Int) + ((strlen line : Int) - 1)) % 18446744073709551616).toNat = _
  rw [hs]
  omega

theorem countP_take_le (sgn : Bool) (t : Nat) (line : List Byte) (n : Nat) :
    (line.take n).countP (highScored sgn t) ≤ n := by
  have h1 := List.countP_le_length (highScored sgn t) (l := line.take n)
  rw [List.length_take] at h1
  omega

theorem highScored_mono (sgn : Bool) {t1 t2 : Nat} (ht : t1 ≤ t2) (b : Byte)
    (h : highScored sgn t2 b = true) : highScored sgn t1 b = true := by
  simp only [highScored, decide_eq_true_eq] at h ⊢
  omega

theorem countP_highScored_mono (sgn : Bool) {t1 t2 : Nat} (ht : t1 ≤ t2) (l : List Byte) :
    l.countP (highScored sgn t2) ≤ l.countP (highScored sgn t1) :=
  List.countP_mono_left (fun b _ h => highScored_mono sgn ht b h)

theorem readRecord_eof_iff (s : List Byte) : readRecord s = .eof ↔ s = [] := by
  constructor
  · intro h
    cases s with
    | nil => rfl
    | cons c s =>
      exfalso
      unfold readRecord at h
      simp only [fgets] at h
      split at h
      · simp at h
      · split at h
        · simp at h
        · split at h
          · simp at h
          · simp at h
  · intro h; subst h; rfl

theorem stateAfter_succ (sgn : Bool) (t : Nat) :
    ∀ (k : Nat) (s : List Byte) (c : Counters),
      stateAfter sgn t (k + 1) s c =
        (stateAfter sgn t k s c).bind (fun st =>
          match readRecord st.1 with
          | .record line rest => some (rest, accumulate sgn t st.2 line)
          | _ => none) := by
  intro k
  induction k with
  | zero =>
    intro s c
    simp only [stateAfter, Option.some_bind]
  | succ k ih =>
    intro s c
    rw [stateAfter]
    cases hr : readRecord s with
    | eof => simp [stateAfter, hr]
    | missing e => simp [stateAfter, hr]
    | record line rest =>
      simp only []
      rw [ih rest _]
      conv_rhs => rw [stateAfter]
      simp only [hr]

/-- A property of the unread input and the counters that every iteration
preserves holds in every state reached by the scan. -/
theorem stateAfter_invariant (sgn : Bool) (t : Nat) (P : List Byte → Counters → Prop)
    (hstep : ∀ s c line rest, P s c → readRecord s = .record line rest →
      P rest (accumulate sgn t c line)) :
    ∀ (k : Nat) (s : List Byte) (c : Counters) (s' : List Byte) (c' : Counters),
      P s c → stateAfter sgn t k s c = some (s', c') → P s' c' := by
  intro k
  induction k with
  | zero =>
    intro s c s' c' hP h
    simp only [stateAfter, Option.some.injEq, Prod.mk.injEq] at h
    obtain ⟨e1, e2⟩ := h
    subst e1 e2
    exact hP
  | succ k ih =>
    intro s c s' c' hP h
    rw [stateAfter] at h
    cases hr : readRecord s with
    | eof => simp [hr] at h
    | missing e => simp [hr] at h
    | record line rest =>
      simp only [hr] at h
      exact ih rest _ s' c' (hstep s c line rest hP hr) h

/-- The counters of the summary are those of the state in which the first
`fgets` of an iteration finds the input used up. -/
theorem scanLoop_summary_state (sgn : Bool) (t : Nat) :
    ∀ (fuel : Nat) (s : List Byte) (c c' : Counters),
      scanLoop sgn t fuel s c = some (.summary c') →
      ∃ k, stateAfter sgn t k s c = some ([], c') := by
  intro fuel
  induction fuel with
  | zero => intro s c c' h; simp [scanLoop] at h
  | succ fuel ih =>
    intro s c c' h
    rw [scanLoop] at h
    cases hr : readRecord s with
    | eof =>
      simp only [hr, Option.some.injEq, Outcome.summary.injEq] at h
      have hs := (readRecord_eof_iff s).1 hr
      subst hs h
      exact ⟨0, rfl⟩
    | missing e => simp [hr] at h
    | record line rest =>
      simp only [hr] at h
      obtain ⟨k, hk⟩ := ih rest _ c' h
      refine ⟨k + 1, ?_⟩
      rw [stateAfter]
      simp only [hr]
      exact hk

theorem toNat_strlen_pred (line : List Byte) (h0 : (0 : Byte) ∉ line) :
    ((strlen line : Int) - 1).toNat = line.length - 1 := by
  rw [strlen_eq_length line h0]
  omega

/-- One iteration on input without NUL bytes keeps `count_bases ≤ count_all`
and leaves both counters below 2^64. -/
theorem accumulate_le_of_no_nul (sgn : Bool) (t : Nat) (s : List Byte) (c : Counters)
    (line rest : List Byte)
    (hP : (0 : Byte) ∉ s ∧ c.count_bases ≤ c.count_all ∧
      c.count_all + s.length < 18446744073709551616)
    (hr : readRecord s = .record line rest) :
    (0 : Byte) ∉ rest ∧
      (accumulate sgn t c line).count_bases ≤ (accumulate sgn t c line).count_all ∧
      (accumulate sgn t c line).count_all + rest.length < 18446744073709551616 := by
  obtain ⟨h0, hle, hlt⟩ := hP
  obtain ⟨hm1, hm2⟩ := readRecord_mem hr
  obtain ⟨hl1, hl2⟩ := readRecord_length hr
  have h0l : (0 : Byte) ∉ line := fun h => h0 (hm1 0 h)
  have hne : line ≠ [] := fun h => by simp [h] at hl1
  have ha := accumulate_all_of_no_nul sgn t c line h0l hne (by omega)
  have hb := accumulate_bases sgn t c line (by omega)
  have hk := countP_take_le sgn t line ((strlen line : Int) - 1).toNat
  rw [toNat_strlen_pred line h0l] at hk hb
  refine ⟨fun h => h0 (hm2 0 h), ?_, ?_⟩
  · rw [ha, hb]; omega
  · rw [ha]; omega

/-- Two scans of the same input with thresholds `t1 ≤ t2`, started from
counters that agree on `count_reads` and `count_all` and have the smaller
`count_bases` on the side of `t2`, end the same way, with counters related in
the same manner. -/
theorem scanLoop_threshold_mono (sgn : Bool) {t1 t2 : Nat} (ht : t1 ≤ t2) :
    ∀ (fuel : Nat) (s : List Byte) (c1 c2 : Counters), s.length < fuel →
      c1.count_reads = c2.count_reads → c1.count_all = c2.count_all →
      c2.count_bases ≤ c1.count_bases →
      c1.count_bases + s.length < 18446744073709551616 →
      (∃ a b, scanLoop sgn t1 fuel s c1 = some (.summary a) ∧
          scanLoop sgn t2 fuel s c2 = some (.summary b) ∧
          b.count_bases ≤ a.count_bases ∧ a.count_reads = b.count_reads ∧
          a.count_all = b.count_all) ∨
        (∃ k, scanLoop sgn t1 fuel s c1 = some (.fgets_error k) ∧
          scanLoop sgn t2 fuel s c2 = some (.fgets_error k)) := by
  intro fuel
  induction fuel with
  | zero => intro s c1 c2 h; simp at h
  | succ fuel ih =>
    intro s c1 c2 hfuel hr ha hb hlt
    simp only [scanLoop]
    cases hrec : readRecord s with
    | eof => exact Or.inl ⟨c1, c2, rfl, rfl, hb, hr, ha⟩
    | missing k => exact Or.inr ⟨k, rfl, rfl⟩
    | record line rest =>
      obtain ⟨hl1, hl2⟩ := readRecord_length hrec
      have e1 := accumulate_bases sgn t1 c1 line (by omega)
      have e2 := accumulate_bases sgn t2 c2 line (by omega)
      have hm := countP_highScored_mono sgn ht (line.take ((strlen line : Int) - 1).toNat)
      have hk : (line.take ((strlen line : Int) - 1).toNat).countP (highScored sgn t1)
          ≤ line.length := by
        have h1 := List.countP_le_length (highScored sgn t1)
          (l := line.take ((strlen line : Int) - 1).toNat)
        rw [List.length_take] at h1
        omega
      refine ih rest _ _ (by omega) ?_ ?_ ?_ ?_
      · simp only [accumulate_reads, hr]
      · show (((c1.count_all : Int) + _) % 18446744073709551616).toNat =
          (((c2.count_all : Int) + _) % 18446744073709551616).toNat
        rw [ha]
      · rw [e1, e2]; omega
      · rw [e1]; omega

/-- One iteration, on input of fewer than 2^64 bytes, does not decrease
`count_reads` or `count_bases`; nor `count_all` when the input holds no NUL
byte. -/
theorem accumulate_monotone (sgn : Bool) (t : Nat) (nf : Prop) (s : List Byte) (c : Counters)
    (line rest : List Byte)
    (hP : c.count_reads + s.length < 18446744073709551616 ∧
      c.count_bases + s.length < 18446744073709551616 ∧
      (nf → (0 : Byte) ∉ s ∧ c.count_all + s.length < 18446744073709551616))
    (hr : readRecord s = .record line rest) :
    ((accumulate sgn t c line).count_reads + rest.length < 18446744073709551616 ∧
      (accumulate sgn t c line).count_bases + rest.length < 18446744073709551616 ∧
      (nf → (0 : Byte) ∉ rest ∧
        (accumulate sgn t c line).count_all + rest.length < 18446744073709551616)) ∧
    c.count_reads ≤ (accumulate sgn t c line).count_reads ∧
    c.count_bases ≤ (accumulate sgn t c line).count_bases ∧
    (nf → c.count_all ≤ (accumulate sgn t c line).count_all) := by
  obtain ⟨h1, h2, h3⟩ := hP
  obtain ⟨hm1, hm2⟩ := readRecord_mem hr
  obtain ⟨hl1, hl2⟩ := readRecord_length hr
  have hne : line ≠ [] := fun h => by simp [h] at hl1
  have hb := accumulate_bases sgn t c line (by omega)
  have hk : (line.take ((strlen line : Int) - 1).toNat).countP (highScored sgn t)
      ≤ line.length := by
    have h1 := List.countP_le_length (highScored sgn t)
      (l := line.take ((strlen line : Int) - 1).toNat)
    rw [List.length_take] at h1
    omega
  have hreads : (accumulate sgn t c line).count_reads = c.count_reads + 1 := by
    rw [accumulate_reads]; omega
  have hall : nf → (0 : Byte) ∉ rest ∧
      (accumulate sgn t c line).count_all = c.count_all + (line.length - 1) := by
    intro hnf
    obtain ⟨h0, hlt⟩ := h3 hnf
    exact ⟨fun h => h0 (hm2 0 h),
      accumulate_all_of_no_nul sgn t c line (fun h => h0 (hm1 0 h)) hne (by omega)⟩
  refine ⟨⟨?_, ?_, ?_⟩, ?_, ?_, ?_⟩
  · rw [hreads]; omega
  · rw [hb]; omega
  · intro hnf
    obtain ⟨h0, hlt⟩ := h3 hnf
    obtain ⟨h4, h5⟩ := hall hnf
    exact ⟨h4, by rw [h5]; omega⟩
  · rw [hreads]; omega
  · rw [hb]; omega
  · intro hnf
    rw [(hall hnf).2]; omega

/-! ## Lines and buffers -/

theorem lines_eq_nil_iff (s : List Byte) : lines s = [] ↔ s = [] := by
  cases s with
  | nil => simp [lines]
  | cons c s =>
    simp only [lines, reduceCtorEq, iff_false]
    by_cases h : c = 10
    · simp [h]
    · rw [if_neg h]
      cases lines s <;> simp

theorem fgetsAux_lines :
    ∀ (s : List Byte) (n : Nat) (l : List Byte) (ls : List (List Byte)),
      lines s = l :: ls → l.length < n → lines (fgetsAux n s).2 = ls := by
  intro s
  induction s with
  | nil => intro n l ls h; simp [lines] at h
  | cons c s ih =>
    intro n l ls h hn
    cases n with
    | zero => simp at hn
    | succ n =>
      by_cases hc : c = 10
      · simp only [lines, hc, if_true, List.cons.injEq] at h
        simp only [fgetsAux, hc, if_true]
        exact h.2
      · simp only [lines, hc, if_false] at h
        simp only [fgetsAux, hc, if_false]
        cases hl : lines s with
        | nil =>
          rw [hl] at h
          simp only [List.cons.injEq] at h
          have hs := (lines_eq_nil_iff s).1 hl
          subst hs
          rw [← h.2]
          cases n <;> simp [fgetsAux, lines]
        | cons l' ls' =>
          rw [hl] at h
          simp only [List.cons.injEq] at h
          obtain ⟨e1, e2⟩ := h
          subst e1 e2
          exact ih n l' ls' hl (by simpa using hn)

theorem fgets_lines (s : List Byte) (l : List Byte) (ls : List (List Byte))
    (h : lines s = l :: ls) (hl : l.length ≤ 4094) :
    ∃ b r, fgets MAX_CHAR s = some (b, r) ∧ lines r = ls := by
  cases s with
  | nil => simp [lines] at h
  | cons c s =>
    refine ⟨(fgetsAux 4095 (c :: s)).1, (fgetsAux 4095 (c :: s)).2, rfl, ?_⟩
    exact fgetsAux_lines (c :: s) 4095 l ls h (by omega)

theorem fgets_nil : fgets MAX_CHAR [] = none := rfl

/-- The four `fgets` calls of an iteration, on an input whose lines all fit
the buffer: each call takes one line. -/
theorem readRecord_lines (s : List Byte) (hs : ∀ l ∈ lines s, l.length ≤ 4094) :
    ((lines s).length = 0 ∧ readRecord s = .eof) ∨
    ((lines s).length = 1 ∧ readRecord s = .missing 2) ∨
    ((lines s).length = 2 ∧ readRecord s = .missing 3) ∨
    ((lines s).length = 3 ∧ readRecord s = .missing 4) ∨
    (∃ line rest, readRecord s = .record line rest ∧
      (lines s).length = (lines rest).length + 4 ∧ ∀ l ∈ lines rest, l.length ≤ 4094) := by
  cases h1 : lines s with
  | nil =>
    have e := (lines_eq_nil_iff s).1 h1
    subst e
    exact Or.inl ⟨rfl, rfl⟩
  | cons l1 ls1 =>
    rw [h1] at hs
    obtain ⟨b1, s1, f1, r1⟩ := fgets_lines s l1 ls1 h1 (hs l1 (by simp))
    right
    cases h2 : ls1 with
    | nil =>
      rw [h2] at r1
      have e := (lines_eq_nil_iff s1).1 r1
      subst e
      exact Or.inl ⟨rfl, by simp only [readRecord, f1, fgets_nil]⟩
    | cons l2 ls2 =>
      rw [h2] at r1 hs
      obtain ⟨b2, s2, f2, r2⟩ := fgets_lines s1 l2 ls2 r1 (hs l2 (by simp))
      right
      cases h3 : ls2 with
      | nil =>
        rw [h3] at r2
        have e := (lines_eq_nil_iff s2).1 r2
        subst e
        exact Or.inl ⟨rfl, by simp only [readRecord, f1, f2, fgets_nil]⟩
      | cons l3 ls3 =>
        rw [h3] at r2 hs
        obtain ⟨b3, s3, f3, r3⟩ := fgets_lines s2 l3 ls3 r2 (hs l3 (by simp))
        right
        cases h4 : ls3 with
        | nil =>
          rw [h4] at r3
          have e := (lines_eq_nil_iff s3).1 r3
          subst e
          exact Or.inl ⟨rfl, by simp only [readRecord, f1, f2, f3, fgets_nil]⟩
        | cons l4 ls4 =>
          rw [h4] at r3 hs
          obtain ⟨b4, s4, f4, r4⟩ := fgets_lines s3 l4 ls4 r3 (hs l4 (by simp))
          right
          refine ⟨b4, s4, by simp only [readRecord, f1, f2, f3, f4], ?_, ?_⟩
          · rw [r4]; simp
          · intro l hl
            rw [r4] at hl
            exact hs l (by simp [hl])

theorem scanLoop_lines (sgn : Bool) (t : Nat) :
    ∀ (fuel : Nat) (s : List Byte) (c : Counters), s.length < fuel →
      (∀ l ∈ lines s, l.length ≤ 4094) →
      ((lines s).length % 4 = 0 → ∃ c', scanLoop sgn t fuel s c = some (.summary c')) ∧
      ((lines s).length % 4 ≠ 0 →
        scanLoop sgn t fuel s c = some (.fgets_error ((lines s).length % 4 + 1))) := by
  intro fuel
  induction fuel with
  | zero => intro s c h; simp at h
  | succ fuel ih =>
    intro s c hfuel hs
    simp only [scanLoop]
    rcases readRecord_lines s hs with ⟨hn, hr⟩ | ⟨hn, hr⟩ | ⟨hn, hr⟩ | ⟨hn, hr⟩ |
      ⟨line, rest, hr, hn, hrest⟩
    · rw [hn, hr]; exact ⟨fun _ => ⟨c, rfl⟩, fun h => absurd rfl h⟩
    · rw [hn, hr]; exact ⟨fun h => by simp at h, fun _ => rfl⟩
    · rw [hn, hr]; exact ⟨fun h => by simp at h, fun _ => rfl⟩
    · rw [hn, hr]; exact ⟨fun h => by simp at h, fun _ => rfl⟩
    · have hl := readRecord_length hr
      have key := ih rest (accumulate sgn t c line) (by omega) hrest
      have hm : (lines s).length % 4 = (lines rest).length % 4 := by omega
      rw [hm, hr]
      exact key

theorem lines_append_newline (l rest : List Byte) (hl : (10 : Byte) ∉ l) :
    lines (l ++ 10 :: rest) = l :: lines rest := by
  induction l with
  | nil => simp [lines]
  | cons c l ih =>
    have hc : c ≠ 10 := fun h => hl (by simp [h])
    have hl2 : (10 : Byte) ∉ l := fun h => hl (by simp [h])
    have e := ih hl2
    rw [List.cons_append, lines, if_neg hc, e]

theorem fgets_newline (rest : List Byte) :
    fgets MAX_CHAR (10 :: rest) = some ([10], rest) := by
  simp [fgets, MAX_CHAR, fgetsAux]

theorem length_lines_fastq (rs : List FastqRecord) (hf : ∀ r ∈ rs, r.Framed) :
    (lines (fastq rs)).length = 4 * rs.length := by
  induction rs with
  | nil => rfl
  | cons r rs ih =>
    obtain ⟨f1, f2, f3, f4⟩ := hf r (by simp)
    have e : fastq (r :: rs) = r.header ++ 10 :: (r.sequence ++ 10 :: (r.separator ++ 10 ::
        (r.quality ++ 10 :: fastq rs))) := by
      simp [fastq, FastqRecord.bytes, List.append_assoc]
    rw [e, lines_append_newline _ _ f1, lines_append_newline _ _ f2,
      lines_append_newline _ _ f3, lines_append_newline _ _ f4]
    simp only [List.length_cons, ih (fun x hx => hf x (by simp [hx]))]
    omega

/-- A record whose sequence line and quality line each fill the buffer
exactly: the scan aborts at the third read of its second group. -/
theorem scan_full_buffer_lines (sgn : Bool) (t : Nat) (h p a q : List Byte)
    (hh : (10 : Byte) ∉ h) (lh : h.length ≤ 4094)
    (hp : (10 : Byte) ∉ p) (lp : p.length ≤ 4094)
    (ha : (10 : Byte) ∉ a) (la : a.length = 4095)
    (hq : (10 : Byte) ∉ q) (lq : q.length = 4095) :
    scan sgn t (fastq [FastqRecord.mk h a p q]) = some (.fgets_error 3) := by
  have e : fastq [FastqRecord.mk h a p q] =
      h ++ 10 :: (a ++ 10 :: (p ++ 10 :: (q ++ 10 :: []))) := by
    simp [fastq, FastqRecord.bytes, List.append_assoc]
  have r1 : readRecord (h ++ 10 :: (a ++ 10 :: (p ++ 10 :: (q ++ 10 :: [])))) =
      .record (p ++ [10]) (q ++ 10 :: []) := by
    simp only [readRecord, fgets_line _ _ hh lh, fgets_full _ _ ha la, fgets_newline,
      fgets_line _ _ hp lp]
  have r2 : readRecord (q ++ 10 :: []) = .missing 3 := by
    simp only [readRecord, fgets_full _ _ hq lq, fgets_newline, fgets_nil]
  rw [e]
  unfold scan
  rw [scanLoop_record sgn t _ _ r1 (Nat.lt_succ_self _)]
  simp only [scanLoop, r2]

/-! ## The printed line -/

theorem isDigit_digitChar (d : Nat) (h : d < 10) : (Nat.digitChar d).isDigit = true := by
  interval_cases d <;> decide

theorem isDigit_of_mem_toDigitsCore :
    ∀ (fuel n : Nat) (ds : List Char), (∀ ch ∈ ds, ch.isDigit = true) →
      ∀ ch ∈ Nat.toDigitsCore 10 fuel n ds, ch.isDigit = true := by
  intro fuel
  induction fuel with
  | zero => intro n ds h ch hc; exact h ch (by simpa [Nat.toDigitsCore] using hc)
  | succ fuel ih =>
    intro n ds h ch hc
    have hd : ∀ x ∈ Nat.digitChar (n % 10) :: ds, x.isDigit = true := by
      intro x hx
      rcases List.mem_cons.1 hx with e | e
      · rw [e]; exact isDigit_digitChar _ (Nat.mod_lt _ (by decide))
      · exact h x e
    simp only [Nat.toDigitsCore] at hc
    split at hc
    · exact hd ch hc
    · exact ih _ _ hd ch hc

theorem isDigit_of_mem_toString (n : Nat) : ∀ ch ∈ (toString n).data, ch.isDigit = true := by
  intro ch hc
  exact isDigit_of_mem_toDigitsCore _ _ [] (by simp) ch hc

theorem summaryLine_data (c : Counters) :
    (summaryLine c).data = (toString c.count_reads).data ++ '\t' ::
      ((toString c.count_bases).data ++ '\t' :: ((toString c.count_all).data ++ ['\n'])) := by
  simp [summaryLine, String.data_append]

theorem count_newline_toString (n : Nat) : (toString n).data.count '\n' = 0 := by
  rw [List.count_eq_zero]
  intro h
  have := isDigit_of_mem_toString n _ h
  revert this
  decide


/-! ## A last line without terminator -/

theorem fgetsAux_tail (n : Nat) (l : List Byte) (hl : (10 : Byte) ∉ l) (hn : l.length ≤ n) :
    fgetsAux n l = (l, []) := by
  induction l generalizing n with
  | nil => cases n <;> rfl
  | cons c l ih =>
    cases n with
    | zero => simp at hn
    | succ n =>
      have hc : c ≠ 10 := fun h => hl (by simp [h])
      have hl2 : (10 : Byte) ∉ l := fun h => hl (by simp [h])
      have := ih n hl2 (by simpa using hn)
      simp [fgetsAux, hc, this]

theorem fgets_tail (l : List Byte) (hl : (10 : Byte) ∉ l) (hne : l ≠ [])
    (hn : l.length ≤ 4095) : fgets MAX_CHAR l = some (l, []) := by
  have h := fgetsAux_tail 4095 l hl hn
  cases l with
  | nil => exact absurd rfl hne
  | cons c l => simpa [fgets, MAX_CHAR] using h

theorem readRecord_unterminated (r : FastqRecord) (hf : r.Framed) (hw : r.Within 4094)
    (hne : r.quality ≠ []) :
    readRecord r.unterminated = .record r.quality [] := by
  obtain ⟨f1, f2, f3, f4⟩ := hf
  obtain ⟨w1, w2, w3, w4⟩ := hw
  simp only [FastqRecord.unterminated, readRecord, fgets_line _ _ f1 w1, fgets_line _ _ f2 w2,
    fgets_line _ _ f3 w3, fgets_tail _ f4 hne (by omega)]

theorem accumulate_snoc (sgn : Bool) (t : Nat) (c : Counters) (q : List Byte) (x : Byte)
    (h0 : (0 : Byte) ∉ q) (hx : x ≠ 0) (hc : c.count_bases < 18446744073709551616) :
    accumulate sgn t c (q ++ [x]) =
      { count_reads := (c.count_reads + 1) % 18446744073709551616
        count_bases := (c.count_bases + q.countP (highScored sgn t)) % 18446744073709551616
        count_all := (c.count_all + q.length) % 18446744073709551616 } := by
  have hs : strlen (q ++ [x]) = q.length + 1 := by
    rw [strlen_eq_length]
    · simp
    · intro h
      rcases List.mem_append.1 h with h | h
      · exact h0 h
      · exact hx (List.mem_singleton.1 h).symm
  have hl : ((strlen (q ++ [x]) : Int) - 1) = (q.length : Int) := by
    rw [hs]; push_cast; omega
  unfold accumulate
  simp only [hl, Int.toNat_ofNat, List.take_left, countLoop_eq sgn t _ q hc]
  congr 1

theorem scanLoop_fastq_append (sgn : Bool) (t : Nat) (rs : List FastqRecord)
    (rest : List Byte) :
    ∀ (c : Counters), (∀ r ∈ rs, r.Framed) → (∀ r ∈ rs, r.Within 4094) →
      scanLoop sgn t ((fastq rs ++ rest).length + 1) (fastq rs ++ rest) c =
        scanLoop sgn t (rest.length + 1) rest ((qualityBuffers rs).foldl (accumulate sgn t) c) := by
  induction rs with
  | nil => intro c _ _; simp [fastq, qualityBuffers]
  | cons r rs ih =>
    intro c hf hw
    have h1 := readRecord_bytes r (fastq rs ++ rest) (hf r (by simp)) (hw r (by simp))
    have e : fastq (r :: rs) ++ rest = r.bytes ++ (fastq rs ++ rest) := by
      simp [fastq, List.append_assoc]
    rw [e, scanLoop_record sgn t c _ h1 (Nat.lt_succ_self _),
      ih _ (fun x hx => hf x (by simp [hx])) (fun x hx => hw x (by simp [hx]))]
    simp [qualityBuffers]

theorem fastq_append (rs : List FastqRecord) (r : FastqRecord) :
    fastq (rs ++ [r]) = fastq rs ++ r.bytes := by
  induction rs with
  | nil => simp [fastq]
  | cons a rs ih => simp [fastq, ih, List.append_assoc]

theorem unterminated_length_le (rs : List FastqRecord) (r : FastqRecord) :
    qualityLength rs + r.quality.length + rs.length + 1 ≤ (fastq (rs ++ [r])).length := by
  have h := qualityLength_le_fastq rs
  rw [fastq_append, List.length_append]
  simp only [FastqRecord.bytes, List.length_append, List.length_cons, List.length_nil]
  omega

theorem highScoredCount_le (sgn : Bool) (t : Nat) (rs : List FastqRecord) :
    highScoredCount sgn t rs ≤ qualityLength rs := by
  induction rs with
  | nil => simp [highScoredCount, qualityLength]
  | cons r rs ih =>
    simp only [highScoredCount, List.map_cons, List.sum_cons, qualityLength] at ih ⊢
    have := List.countP_le_length (highScored sgn t) (l := r.quality)
    omega

/-- The counters after complete records without NUL bytes in their quality
lines, on an input short enough for no counter to wrap. -/
theorem foldl_accumulate_exact (sgn : Bool) (t : Nat) (rs : List FastqRecord)
    (h0 : ∀ r ∈ rs, (0 : Byte) ∉ r.quality)
    (hlen : qualityLength rs + rs.length < 18446744073709551616) :
    (qualityBuffers rs).foldl (accumulate sgn t) initial =
      { count_reads := rs.length
        count_bases := highScoredCount sgn t rs
        count_all := qualityLength rs } := by
  rw [foldl_accumulate_terminated sgn t rs h0 initial (by simp [Counters.InRange, initial])]
  have h1 := highScoredCount_le sgn t rs
  have h2 : (rs.map (fun r => r.quality.countP (highScored sgn t))).sum =
      highScoredCount sgn t rs := rfl
  simp only [initial, Nat.zero_add, h2]
  rw [Nat.mod_eq_of_lt (by omega), Nat.mod_eq_of_lt (by omega), Nat.mod_eq_of_lt (by omega)]

/-- A record without final line terminator whose sequence line and quality
line are longer than one buffer: the scan aborts at the third read of its
second group. -/
theorem scan_unterminated_long (sgn : Bool) (t : Nat) (h p a a2 q q2 : List Byte)
    (hh : (10 : Byte) ∉ h) (lh : h.length ≤ 4094)
    (hp : (10 : Byte) ∉ p) (lp : p.length ≤ 4094)
    (ha : (10 : Byte) ∉ a) (la : a.length = 4095)
    (ha2 : (10 : Byte) ∉ a2) (la2 : a2.length ≤ 4094)
    (hq : (10 : Byte) ∉ q) (lq : q.length = 4095)
    (hq2 : (10 : Byte) ∉ q2) (nq2 : q2 ≠ []) (lq2 : q2.length ≤ 4095) :
    scan sgn t (FastqRecord.mk h (a ++ a2) p (q ++ q2)).unterminated =
      some (.fgets_error 3) := by
  have e : (FastqRecord.mk h (a ++ a2) p (q ++ q2)).unterminated =
      h ++ 10 :: (a ++ (a2 ++ 10 :: (p ++ 10 :: (q ++ q2)))) := by
    simp [FastqRecord.unterminated, List.append_assoc]
  have r1 : readRecord (h ++ 10 :: (a ++ (a2 ++ 10 :: (p ++ 10 :: (q ++ q2))))) =
      .record (p ++ [10]) (q ++ q2) := by
    simp only [readRecord, fgets_line _ _ hh lh, fgets_full _ _ ha la, fgets_line _ _ ha2 la2,
      fgets_line _ _ hp lp]
  have r2 : readRecord (q ++ q2) = .missing 3 := by
    simp only [readRecord, fgets_full _ _ hq lq, fgets_tail _ hq2 nq2 lq2, fgets_nil]
  rw [e]
  unfold scan
  rw [scanLoop_record sgn t _ _ r1 (Nat.lt_succ_self _)]
  simp only [scanLoop, r2]

/-! ## The command line -/

theorem isdigit_charValue (sgn : Bool) (c : Byte) :
    isdigit (charValue sgn c) = true ↔ 48 ≤ c.val ∧ c.val ≤ 57 := by
  have hlt := c.isLt
  unfold isdigit charValue
  rw [decide_eq_true_eq]
  split <;> omega

theorem isspace_of_digit (c : Byte) (h : 48 ≤ c.val) : isspace c = false := by
  unfold isspace
  rw [decide_eq_false_iff_not]
  omega

theorem ne_sign_of_digit (c : Byte) (h : 48 ≤ c.val) : c ≠ 45 ∧ c ≠ 43 := by
  constructor <;> intro e <;> rw [e] at h <;> revert h <;> decide

theorem strtol_one_digit (a : Byte) (ha : 48 ≤ a.val ∧ a.val ≤ 57) :
    strtol [a] = ((a.val - 48 : Nat) : Int) := by
  obtain ⟨n1, n2⟩ := ne_sign_of_digit a ha.1
  simp only [strtol, List.dropWhile, isspace_of_digit a ha.1, if_neg n1, if_neg n2,
    digitsValue, ha, and_self, if_true]
  split <;> [omega; skip]
  split <;> omega

theorem strtol_two_digits (a b : Byte) (ha : 48 ≤ a.val ∧ a.val ≤ 57)
    (hb : 48 ≤ b.val ∧ b.val ≤ 57) :
    strtol [a, b] = ((10 * (a.val - 48) + (b.val - 48) : Nat) : Int) := by
  obtain ⟨n1, n2⟩ := ne_sign_of_digit a ha.1
  simp only [strtol, List.dropWhile, isspace_of_digit a ha.1, if_neg n1, if_neg n2,
    digitsValue, ha, hb, and_self, if_true]
  split <;> [omega; skip]
  split <;> omega

theorem toUnsignedShort_natCast (n : Nat) (h : n < 65536) :
    toUnsignedShort (n : Int) = n := by
  unfold toUnsignedShort
  omega

theorem is_small_int_zero_or_one (sgn : Bool) (s : List Byte) :
    is_small_int sgn s = 0 ∨ is_small_int sgn s = 1 := by
  simp only [is_small_int]
  split_ifs <;> simp

/-! ## The two buffer sizes -/

theorem fgetsAux_agree :
    ∀ (s : List Byte) (n m : Nat) (l : List Byte) (ls : List (List Byte)),
      lines s = l :: ls → l.length < n → l.length < m → fgetsAux n s = fgetsAux m s := by
  intro s
  induction s with
  | nil => intro n m l ls h; simp [lines] at h
  | cons c s ih =>
    intro n m l ls h hn hm
    cases n with
    | zero => simp at hn
    | succ n =>
      cases m with
      | zero => simp at hm
      | succ m =>
        by_cases hc : c = 10
        · simp only [fgetsAux, hc, if_true]
        · simp only [lines, hc, if_false] at h
          simp only [fgetsAux, hc, if_false]
          cases hl : lines s with
          | nil =>
            have hs := (lines_eq_nil_iff s).1 hl
            subst hs
            cases n <;> cases m <;> rfl
          | cons l' ls' =>
            rw [hl] at h
            simp only [List.cons.injEq] at h
            obtain ⟨e1, _⟩ := h
            subst e1
            rw [ih n m l' ls' hl (by simpa using hn) (by simpa using hm)]

theorem fgets_agree (s : List Byte) (hs : ∀ l ∈ lines s, l.length ≤ 2046) :
    fgets JF_MAX_CHAR s = fgets MAX_CHAR s := by
  cases s with
  | nil => rfl
  | cons c s =>
    cases hl : lines (c :: s) with
    | nil => exact absurd ((lines_eq_nil_iff _).1 hl) (by simp)
    | cons l ls =>
      have hlen := hs l (by rw [hl]; simp)
      simp only [fgets, JF_MAX_CHAR, MAX_CHAR]
      rw [fgetsAux_agree (c :: s) 2047 4095 l ls hl (by omega) (by omega)]

theorem fgets_short_rest (s b r : List Byte) (n : Nat) (hn : n ≤ 4094)
    (hs : ∀ l ∈ lines s, l.length ≤ n) (h : fgets MAX_CHAR s = some (b, r)) :
    ∀ l ∈ lines r, l.length ≤ n := by
  cases hl : lines s with
  | nil =>
    have e := (lines_eq_nil_iff s).1 hl
    subst e
    simp [fgets] at h
  | cons l ls =>
    rw [hl] at hs
    obtain ⟨b', r', h', hr⟩ := fgets_lines s l ls hl (by have := hs l (by simp); omega)
    rw [h] at h'
    simp only [Option.some.injEq, Prod.mk.injEq] at h'
    obtain ⟨_, e⟩ := h'
    subst e
    intro x hx
    rw [hr] at hx
    exact hs x (by simp [hx])

theorem jfReadRecord_eq (s : List Byte) (hs : ∀ l ∈ lines s, l.length ≤ 2046) :
    jfReadRecord s = readRecord s := by
  unfold jfReadRecord readRecord
  rw [fgets_agree s hs]
  cases h1 : fgets MAX_CHAR s with
  | none => rfl
  | some p1 =>
    obtain ⟨b1, s1⟩ := p1
    have hs1 := fgets_short_rest s b1 s1 2046 (by omega) hs h1
    simp only []
    rw [fgets_agree s1 hs1]
    cases h2 : fgets MAX_CHAR s1 with
    | none => rfl
    | some p2 =>
      obtain ⟨b2, s2⟩ := p2
      have hs2 := fgets_short_rest s1 b2 s2 2046 (by omega) hs1 h2
      simp only []
      rw [fgets_agree s2 hs2]
      cases h3 : fgets MAX_CHAR s2 with
      | none => rfl
      | some p3 =>
        obtain ⟨b3, s3⟩ := p3
        have hs3 := fgets_short_rest s2 b3 s3 2046 (by omega) hs2 h3
        simp only []
        rw [fgets_agree s3 hs3]

theorem readRecord_short_rest (s line rest : List Byte) (n : Nat) (hn : n ≤ 4094)
    (hs : ∀ l ∈ lines s, l.length ≤ n) (h : readRecord s = .record line rest) :
    ∀ l ∈ lines rest, l.length ≤ n := by
  rcases readRecord_lines s (fun l hl => by have := hs l hl; omega) with
    ⟨_, hr⟩ | ⟨_, hr⟩ | ⟨_, hr⟩ | ⟨_, hr⟩ | _
  · rw [hr] at h; cases h
  · rw [hr] at h; cases h
  · rw [hr] at h; cases h
  · rw [hr] at h; cases h
  · unfold readRecord at h
    cases h1 : fgets MAX_CHAR s with
    | none => simp [h1] at h
    | some p1 =>
      obtain ⟨b1, s1⟩ := p1
      simp only [h1] at h
      cases h2 : fgets MAX_CHAR s1 with
      | none => simp [h2] at h
      | some p2 =>
        obtain ⟨b2, s2⟩ := p2
        simp only [h2] at h
        cases h3 : fgets MAX_CHAR s2 with
        | none => simp [h3] at h
        | some p3 =>
          obtain ⟨b3, s3⟩ := p3
          simp only [h3] at h
          cases h4 : fgets MAX_CHAR s3 with
          | none => simp [h4] at h
          | some p4 =>
            obtain ⟨b4, s4⟩ := p4
            simp only [h4, Step.record.injEq] at h
            obtain ⟨_, e⟩ := h
            subst e
            exact fgets_short_rest s3 b4 s4 n hn
              (fgets_short_rest s2 b3 s3 n hn
                (fgets_short_rest s1 b2 s2 n hn (fgets_short_rest s b1 s1 n hn hs h1) h2) h3) h4

theorem jfScanLoop_eq (sgn : Bool) (t : Nat) :
    ∀ (fuel : Nat) (s : List Byte) (c : Counters), (∀ l ∈ lines s, l.length ≤ 2046) →
      jfScanLoop sgn t fuel s { count_base := c.count_bases, count_line := c.count_reads } =
        (scanLoop sgn t fuel s c).map jfView := by
  intro fuel
  induction fuel with
  | zero => intro s c _; rfl
  | succ fuel ih =>
    intro s c hs
    simp only [jfScanLoop, scanLoop, jfReadRecord_eq s hs]
    cases hr : readRecord s with
    | eof => rfl
    | missing k => rfl
    | record line rest =>
      exact ih rest (accumulate sgn t c line)
        (readRecord_short_rest s line rest 2046 (by omega) hs hr)

theorem jfScan_eq (sgn : Bool) (t : Nat) (input : List Byte)
    (hs : ∀ l ∈ lines input, l.length ≤ 2046) :
    jfScan sgn t input = (scan sgn t input).map jfView :=
  jfScanLoop_eq sgn t _ input initial hs

theorem ascii_dash_q : ascii "-q" = [45, 113] := by decide

theorem is_small_int_dash_q (sgn : Bool) : is_small_int sgn [45, 113] = 0 := by
  cases sgn <;> decide

theorem ns0007_arguments_q (sgn : Bool) (value : List Byte) :
    ns0007_arguments sgn [ascii "-q", value] = .run (toUnsignedShort (strtol value)) := by
  rw [ascii_dash_q]
  simp [ns0007_arguments, is_small_int_dash_q, optionLoop, optionsInWord]

theorem ns0007_source_none (files : List Byte → Option (List Byte)) (argv : List (List Byte))
    (last : List Byte) (hl : argv.getLast? = some last) (hfile : files last = none) :
    ns0007_source files argv = .standardInput := by
  simp [ns0007_source, hl, hfile]

theorem ns0007_source_some (files : List Byte → Option (List Byte)) (argv : List (List Byte))
    (last contents : List Byte) (hl : argv.getLast? = some last)
    (hfile : files last = some contents) :
    ns0007_source files argv = .file last := by
  simp [ns0007_source, hl, hfile]

theorem ns0007_main_run (sgn : Bool) (files : List Byte → Option (List Byte))
    (argv : List (List Byte)) (stdin : List Byte) (t : Nat)
    (h : ns0007_arguments sgn argv = .run t) :
    ns0007_main sgn files argv stdin =
      .scanned (scan sgn t (sourceBytes files stdin (ns0007_source files argv))) := by
  simp [ns0007_main, h]

/-! ## The default thresholds -/

theorem digitsValue_eq_foldl (ds : List Byte) (hd : ∀ c ∈ ds, 48 ≤ c.val ∧ c.val ≤ 57) :
    ∀ acc : Nat, digitsValue acc ds = ds.foldl (fun n c => 10 * n + (c.val - 48)) acc := by
  induction ds with
  | nil => intro acc; rfl
  | cons c cs ih =>
    intro acc
    have hc := hd c (by simp)
    simp only [digitsValue, hc, and_self, if_true, List.foldl_cons]
    exact ih (fun x hx => hd x (by simp [hx])) _

theorem isspace_sign (c : Byte) (h : c = 45 ∨ c = 43) : isspace c = false := by
  rcases h with e | e <;> subst e <;> decide

theorem denotedNatural_eq_some (ds : List Byte) (v : Nat) (h : denotedNatural ds = some v) :
    (∀ c ∈ ds, 48 ≤ c.val ∧ c.val ≤ 57) ∧ digitsValue 0 ds = v := by
  unfold denotedNatural at h
  split at h
  · rename_i hds
    simp only [Option.some.injEq] at h
    exact ⟨hds.2, by rw [digitsValue_eq_foldl ds hds.2 0, h]⟩
  · simp at h

theorem clamp_of_range (n : Int) (hlo : -9223372036854775808 ≤ n)
    (hhi : n ≤ 9223372036854775807) :
    (if n < -9223372036854775808 then -9223372036854775808
      else if 9223372036854775807 < n then 9223372036854775807 else n) = n := by
  rw [if_neg (by omega), if_neg (by omega)]

/-- On a string that denotes an integer, `strtol` returns that integer when it
is in the range of `long`. -/
theorem strtol_denoted (s : List Byte) (n : Int) (hd : denotedInteger s = some n)
    (hlo : -9223372036854775808 ≤ n) (hhi : n ≤ 9223372036854775807) :
    strtol s = n := by
  match s with
  | [] => simp [denotedInteger] at hd
  | c :: cs =>
    simp only [denotedInteger] at hd
    by_cases h45 : c = 45
    · simp only [h45, if_true] at hd
      cases hn : denotedNatural cs with
      | none => simp [hn] at hd
      | some v =>
        simp only [hn, Option.some.injEq] at hd
        obtain ⟨_, hv⟩ := denotedNatural_eq_some cs v hn
        simp only [strtol, List.dropWhile, h45, isspace_sign 45 (Or.inl rfl), if_true, hv, hd]
        exact clamp_of_range n hlo hhi
    · by_cases h43 : c = 43
      · have hne : (43 : Byte) ≠ 45 := by decide
        simp only [h43, hne, if_false, if_true] at hd
        cases hn : denotedNatural cs with
        | none => simp [hn] at hd
        | some v =>
          simp only [hn, Option.some.injEq] at hd
          obtain ⟨_, hv⟩ := denotedNatural_eq_some cs v hn
          simp only [strtol, List.dropWhile, h43, isspace_sign 43 (Or.inr rfl), hne, if_false,
            if_true, hv, hd]
          exact clamp_of_range n hlo hhi
      · simp only [h45, h43, if_false] at hd
        cases hn : denotedNatural (c :: cs) with
        | none => simp [hn] at hd
        | some v =>
          simp only [hn, Option.some.injEq] at hd
          obtain ⟨hds, hv⟩ := denotedNatural_eq_some (c :: cs) v hn
          have hc := hds c (by simp)
          simp only [strtol, List.dropWhile, isspace_of_digit c hc.1, h45, h43, if_false, hv, hd]
          exact clamp_of_range n hlo hhi

/-! ## Buffers and lines -/

theorem fgetsAux_length_le (n : Nat) (s : List Byte) : (fgetsAux n s).1.length ≤ n := by
  induction s generalizing n with
  | nil => cases n <;> simp [fgetsAux]
  | cons c s ih =>
    cases n with
    | zero => simp [fgetsAux]
    | succ n =>
      by_cases h : c = 10
      · simp [fgetsAux, h]
      · simp only [fgetsAux, h, if_false, List.length_cons]
        have := ih n
        omega

theorem fgets_length_le {s b r : List Byte} (h : fgets MAX_CHAR s = some (b, r)) :
    b.length ≤ 4095 := by
  cases s with
  | nil => simp [fgets] at h
  | cons c s =>
    simp only [fgets, MAX_CHAR, Option.some.injEq] at h
    have h1 := fgetsAux_length_le 4095 (c :: s)
    rw [h] at h1
    exact h1

theorem fgetsTimes_succ_of_fgets {s b r : List Byte} (k : Nat)
    (h : fgets MAX_CHAR s = some (b, r)) :
    fgetsTimes (k + 1) s =
      match fgetsTimes k r with
      | none => none
      | some (bs, rest) => some (b :: bs, rest) := by
  simp only [fgetsTimes, h]

/-- A line of `L` characters and its newline take `⌈(L + 1) / 4095⌉` calls of
`fgets`, and no fewer. -/
theorem fgetsTimes_line (n : Nat) :
    ∀ (l rest : List Byte), l.length = n → (10 : Byte) ∉ l →
      (∃ bs, fgetsTimes ((l.length + 1 + 4094) / 4095) (l ++ 10 :: rest) = some (bs, rest) ∧
        bs.flatten = l ++ [10] ∧ ∀ b ∈ bs, b.length ≤ 4095) ∧
      ∀ k bs r, k < (l.length + 1 + 4094) / 4095 →
        fgetsTimes k (l ++ 10 :: rest) = some (bs, r) → rest.length < r.length := by
  induction n using Nat.strong_induction_on with
  | _ n ih =>
    intro l rest hn hl
    by_cases hshort : l.length ≤ 4094
    · have hk : (l.length + 1 + 4094) / 4095 = 1 := by omega
      have hf := fgets_line l rest hl hshort
      rw [hk]
      constructor
      · refine ⟨[l ++ [10]], ?_, by simp, ?_⟩
        · rw [fgetsTimes_succ_of_fgets 0 hf]; rfl
        · intro b hb
          rw [List.mem_singleton.1 hb]
          simp only [List.length_append, List.length_singleton]
          omega
      · intro k bs r hk1 h
        have hk0 : k = 0 := by omega
        subst hk0
        simp only [fgetsTimes, Option.some.injEq, Prod.mk.injEq] at h
        rw [← h.2]
        simp only [List.length_append, List.length_cons]
        omega
    · have hsplit := List.take_append_drop 4095 l
      have hla : (l.take 4095).length = 4095 := by rw [List.length_take]; omega
      have hlb : (l.drop 4095).length = l.length - 4095 := List.length_drop _ _
      have ha : (10 : Byte) ∉ l.take 4095 := fun h => hl (List.mem_of_mem_take h)
      have hb : (10 : Byte) ∉ l.drop 4095 := fun h => hl (List.mem_of_mem_drop h)
      have hk : (l.length + 1 + 4094) / 4095 = ((l.drop 4095).length + 1 + 4094) / 4095 + 1 := by
        rw [hlb]; omega
      have hf := fgets_full (l.take 4095) (l.drop 4095 ++ 10 :: rest) ha hla
      have e : l ++ 10 :: rest = l.take 4095 ++ (l.drop 4095 ++ 10 :: rest) := by
        rw [← List.append_assoc, hsplit]
      obtain ⟨⟨bs, h1, h2, h3⟩, hmin⟩ :=
        ih (l.drop 4095).length (by omega) (l.drop 4095) rest rfl hb
      rw [hk, e]
      constructor
      · refine ⟨l.take 4095 :: bs, ?_, ?_, ?_⟩
        · rw [fgetsTimes_succ_of_fgets _ hf, h1]
        · rw [List.flatten_cons, h2, ← List.append_assoc, hsplit]
        · intro b hb'
          rcases List.mem_cons.1 hb' with e1 | e1
          · rw [e1, hla]
          · exact h3 b e1
      · intro k bs' r hk1 h
        cases k with
        | zero =>
          simp only [fgetsTimes, Option.some.injEq, Prod.mk.injEq] at h
          rw [← h.2]
          simp only [List.length_append, List.length_cons]
          omega
        | succ k =>
          rw [fgetsTimes_succ_of_fgets _ hf] at h
          cases hk' : fgetsTimes k (l.drop 4095 ++ 10 :: rest) with
          | none => simp [hk'] at h
          | some p =>
            obtain ⟨bs'', r'⟩ := p
            simp only [hk', Option.some.injEq, Prod.mk.injEq] at h
            rw [← h.2]
            exact hmin k bs'' r' (by omega) hk'

theorem fgets_whole_line_iff (l rest : List Byte) (hl : (10 : Byte) ∉ l) :
    fgets MAX_CHAR (l ++ 10 :: rest) = some (l ++ [10], rest) ↔ l.length ≤ 4094 := by
  constructor
  · intro h
    have := fgets_length_le h
    simp only [List.length_append, List.length_singleton] at this
    omega
  · exact fgets_line l rest hl

/-- A record whose header line fills the buffer exactly: it is read as five
buffers, and the scan aborts at the second read of its second group. -/
theorem scan_full_header (sgn : Bool) (t : Nat) (h s p q : List Byte)
    (hh : (10 : Byte) ∉ h) (lh : h.length = 4095)
    (hs : (10 : Byte) ∉ s) (ls : s.length ≤ 4094)
    (hp : (10 : Byte) ∉ p) (lp : p.length ≤ 4094)
    (hq : (10 : Byte) ∉ q) (lq : q.length ≤ 4094) :
    scan sgn t (fastq [FastqRecord.mk h s p q]) = some (.fgets_error 2) ∧
      fgetsTimes 5 (fastq [FastqRecord.mk h s p q]) =
        some ([h, [10], s ++ [10], p ++ [10], q ++ [10]], []) ∧
      fgetsTimes 6 (fastq [FastqRecord.mk h s p q]) = none := by
  have e : fastq [FastqRecord.mk h s p q] =
      h ++ 10 :: (s ++ 10 :: (p ++ 10 :: (q ++ 10 :: []))) := by
    simp [fastq, FastqRecord.bytes, List.append_assoc]
  have r1 : readRecord (h ++ 10 :: (s ++ 10 :: (p ++ 10 :: (q ++ 10 :: [])))) =
      .record (p ++ [10]) (q ++ 10 :: []) := by
    simp only [readRecord, fgets_full _ _ hh lh, fgets_newline, fgets_line _ _ hs ls,
      fgets_line _ _ hp lp]
  have r2 : readRecord (q ++ 10 :: []) = .missing 2 := by
    simp only [readRecord, fgets_line _ _ hq lq, fgets_nil]
  rw [e]
  refine ⟨?_, ?_, ?_⟩
  · unfold scan
    rw [scanLoop_record sgn t _ _ r1 (Nat.lt_succ_self _)]
    simp only [scanLoop, r2]
  · simp only [fgetsTimes, fgets_full _ _ hh lh, fgets_newline, fgets_line _ _ hs ls,
      fgets_line _ _ hp lp, fgets_line _ _ hq lq]
  · simp only [fgetsTimes, fgets_full _ _ hh lh, fgets_newline, fgets_line _ _ hs ls,
      fgets_line _ _ hp lp, fgets_line _ _ hq lq, fgets_nil]

theorem readRecord_iff_fgetsTimes (s line rest : List Byte) :
    readRecord s = .record line rest ↔
      ∃ b1 b2 b3, fgetsTimes 4 s = some ([b1, b2, b3, line], rest) := by
  cases h1 : fgets MAX_CHAR s with
  | none => simp [readRecord, fgetsTimes, h1]
  | some p1 =>
    obtain ⟨b1, s1⟩ := p1
    cases h2 : fgets MAX_CHAR s1 with
    | none => simp [readRecord, fgetsTimes, h1, h2]
    | some p2 =>
      obtain ⟨b2, s2⟩ := p2
      cases h3 : fgets MAX_CHAR s2 with
      | none => simp [readRecord, fgetsTimes, h1, h2, h3]
      | some p3 =>
        obtain ⟨b3, s3⟩ := p3
        cases h4 : fgets MAX_CHAR s3 with
        | none => simp [readRecord, fgetsTimes, h1, h2, h3, h4]
        | some p4 =>
          obtain ⟨b4, s4⟩ := p4
          simp [readRecord, fgetsTimes, h1, h2, h3, h4]


/-! ## C1: the number of high-quality bases -/

/-- C1 (amended): for every threshold and every input made of complete 4-line
records in which every line has at most 4094 characters, no quality line holds
a NUL byte, and (where `char` is signed) no quality line holds a byte above
127, the scan ends normally and its `count_bases` is the number of
quality-line characters whose decoded score `ord(c) - 33`, taken in unsigned
32-bit arithmetic, is at least the threshold.  The input has fewer than 2^64
bytes. -/
theorem scan_count_bases_fastq (sgn : Bool) (t : Nat) (rs : List FastqRecord)
    (hf : ∀ r ∈ rs, r.Framed) (hw : ∀ r ∈ rs, r.Within 4094)
    (hq : ∀ r ∈ rs, ∀ c ∈ r.quality, c ≠ 0 ∧ (sgn = true → c.val < 128))
    (hlen : (fastq rs).length < 18446744073709551616) :
    ∃ c, scan sgn t (fastq rs) = some (.summary c) ∧
      c.count_bases = highQualityCount t rs := by
  have h0 : ∀ r ∈ rs, (0 : Byte) ∉ r.quality := fun r hr hm => (hq r hr 0 hm).1 rfl
  refine ⟨_, scan_fastq sgn t rs hf hw, ?_⟩
  rw [foldl_accumulate_terminated sgn t rs h0 initial (by simp [Counters.InRange, initial])]
  have hs := sum_countP_eq_highQualityCount sgn t rs (fun r hr c hc => (hq r hr c hc).2)
  have h1 := highQualityCount_le t rs
  have h2 := qualityLength_le_fastq rs
  simp only [initial, hs, Nat.zero_add]
  omega

/-- C1, witness: the quality string `5I` with threshold 30 gives 2 bases, 1 of
them of high quality. -/
theorem scan_count_bases_fastq_witness :
    highQualityCount 30 [read5I] = 1 ∧
      scan true 30 (fastq [read5I]) = some (.summary ⟨1, 1, 2⟩) ∧
      ∃ c, scan true 30 (fastq [read5I]) = some (.summary c) ∧
        c.count_bases = highQualityCount 30 [read5I] :=
  ⟨by decide, by decide,
    scan_count_bases_fastq true 30 [read5I] (by decide) (by decide) (by decide) (by decide)⟩

/-- C1, counterexample: one complete record of 8190 bases, all of quality
character `I` (score 40), scanned with threshold 30.  Each of the two long
lines fills two buffers and leaves its newline to a third read, so the scan
sees two groups whose fourth buffer is a lone newline: it reports 2 reads and
0 high-quality bases, where the quality line holds 8190 such characters. -/
theorem scan_count_bases_long_read :
    (longRead 8190).Framed ∧
      scan true 30 (fastq [longRead 8190]) = some (.summary ⟨2, 0, 0⟩) ∧
      highQualityCount 30 [longRead 8190] = 8190 := by
  refine ⟨?_, ?_, ?_⟩
  · refine ⟨by decide, not_mem_replicate_newline _ _ (by decide), by decide,
      not_mem_replicate_newline _ _ (by decide)⟩
  · have e : longRead 8190 = FastqRecord.mk (ascii "@long")
        (List.replicate 4095 65 ++ (List.replicate 4095 65 ++ [])) (ascii "+")
        (List.replicate 4095 73 ++ (List.replicate 4095 73 ++ [])) := by
      simp only [longRead, List.append_nil, ← List.replicate_add]
    rw [e, scan_three_buffers true 30 _ _ _ _ [] _ _ [] (by decide) (by decide) (by decide)
      (by decide) (not_mem_replicate_newline _ _ (by decide)) (List.length_replicate _ _)
      (not_mem_replicate_newline _ _ (by decide)) (List.length_replicate _ _)
      (by simp) (by simp)
      (not_mem_replicate_newline _ _ (by decide)) (List.length_replicate _ _)
      (not_mem_replicate_newline _ _ (by decide)) (List.length_replicate _ _)
      (by simp) (by simp)]
    decide
  · simp only [highQualityCount, longRead, List.countP_replicate]
    decide

/-! ## C2: the number of all bases -/

/-- C2 (amended): for every input made of complete 4-line records in which
every line has at most 4094 characters and no quality line holds a NUL byte,
the scan ends normally and its `count_all` is the sum of the lengths of the
quality lines, line terminators excluded.  The input has fewer than 2^64
bytes. -/
theorem scan_count_all_fastq (sgn : Bool) (t : Nat) (rs : List FastqRecord)
    (hf : ∀ r ∈ rs, r.Framed) (hw : ∀ r ∈ rs, r.Within 4094)
    (h0 : ∀ r ∈ rs, (0 : Byte) ∉ r.quality)
    (hlen : (fastq rs).length < 18446744073709551616) :
    ∃ c, scan sgn t (fastq rs) = some (.summary c) ∧ c.count_all = qualityLength rs := by
  refine ⟨_, scan_fastq sgn t rs hf hw, ?_⟩
  rw [foldl_accumulate_terminated sgn t rs h0 initial (by simp [Counters.InRange, initial])]
  have h2 := qualityLength_le_fastq rs
  simp only [initial, Nat.zero_add]
  omega

/-- C2, witness: two records with quality lines of 2 and 4 characters give 6
bases in all. -/
theorem scan_count_all_fastq_witness :
    qualityLength [read5I, readIIII] = 6 ∧
      ∃ c, scan true 16 (fastq [read5I, readIIII]) = some (.summary c) ∧
        c.count_all = qualityLength [read5I, readIIII] :=
  ⟨by decide,
    scan_count_all_fastq true 16 [read5I, readIIII] (by decide) (by decide) (by decide)
      (by decide)⟩

/-- C2, counterexample: one complete record of 8191 bases.  Each long line is
read as two full buffers of 4095 characters and a third buffer holding the
last character and the newline; the scan sees two groups, each ending in such
a third buffer, and reports 2 bases in all where the quality line has 8191
characters. -/
theorem scan_count_all_long_read :
    (longRead 8191).Framed ∧
      scan true 30 (fastq [longRead 8191]) = some (.summary ⟨2, 2, 2⟩) ∧
      qualityLength [longRead 8191] = 8191 := by
  refine ⟨?_, ?_, ?_⟩
  · refine ⟨by decide, not_mem_replicate_newline _ _ (by decide), by decide,
      not_mem_replicate_newline _ _ (by decide)⟩
  · have e : longRead 8191 = FastqRecord.mk (ascii "@long")
        (List.replicate 4095 65 ++ (List.replicate 4095 65 ++ List.replicate 1 65)) (ascii "+")
        (List.replicate 4095 73 ++ (List.replicate 4095 73 ++ List.replicate 1 73)) := by
      simp only [longRead, ← List.replicate_add]
    rw [e, scan_three_buffers true 30 _ _ _ _ _ _ _ _ (by decide) (by decide) (by decide)
      (by decide) (not_mem_replicate_newline _ _ (by decide)) (List.length_replicate _ _)
      (not_mem_replicate_newline _ _ (by decide)) (List.length_replicate _ _)
      (not_mem_replicate_newline _ _ (by decide)) (by decide)
      (not_mem_replicate_newline _ _ (by decide)) (List.length_replicate _ _)
      (not_mem_replicate_newline _ _ (by decide)) (List.length_replicate _ _)
      (not_mem_replicate_newline _ _ (by decide)) (by decide)]
    decide
  · simp only [qualityLength, longRead, List.length_replicate]

/-! ## C3: the number of reads -/

/-- C3 (amended): for every input consisting of `N` complete 4-line records
(`N < 2^64`) in which every line has at most 4094 characters, the scan ends
normally and its `count_reads` is `N`. -/
theorem scan_count_reads_fastq (sgn : Bool) (t : Nat) (rs : List FastqRecord)
    (hf : ∀ r ∈ rs, r.Framed) (hw : ∀ r ∈ rs, r.Within 4094)
    (hN : rs.length < 18446744073709551616) :
    ∃ c, scan sgn t (fastq rs) = some (.summary c) ∧ c.count_reads = rs.length := by
  refine ⟨_, scan_fastq sgn t rs hf hw, ?_⟩
  rw [foldl_accumulate_reads sgn t _ initial (by simp [initial])]
  simp only [initial, qualityBuffers, List.length_map, Nat.zero_add]
  omega

/-- C3, witness: an input of two complete records gives 2 reads. -/
theorem scan_count_reads_fastq_witness :
    ∃ c, scan true 16 (fastq [read5I, readIIII]) = some (.summary c) ∧ c.count_reads = 2 :=
  scan_count_reads_fastq true 16 [read5I, readIIII] (by decide) (by decide) (by decide)

/-- C3, counterexample: one complete record of 12284 bases.  Each long line is
read as three buffers (two of 4095 characters, then 4094 characters and the
newline), so the four lines are read as eight buffers and the scan reports 2
reads for the single record. -/
theorem scan_count_reads_long_read :
    (longRead 12284).Framed ∧ [longRead 12284].length = 1 ∧
      ∃ c, scan true 16 (fastq [longRead 12284]) = some (.summary c) ∧ c.count_reads = 2 := by
  refine ⟨?_, rfl, ?_⟩
  · refine ⟨by decide, not_mem_replicate_newline _ _ (by decide), by decide,
      not_mem_replicate_newline _ _ (by decide)⟩
  · have e : longRead 12284 = FastqRecord.mk (ascii "@long")
        (List.replicate 4095 65 ++ (List.replicate 4095 65 ++ List.replicate 4094 65))
        (ascii "+")
        (List.replicate 4095 73 ++ (List.replicate 4095 73 ++ List.replicate 4094 73)) := by
      simp only [longRead, ← List.replicate_add]
    rw [e, scan_three_buffers true 16 _ _ _ _ _ _ _ _ (by decide) (by decide) (by decide)
      (by decide) (not_mem_replicate_newline _ _ (by decide)) (List.length_replicate _ _)
      (not_mem_replicate_newline _ _ (by decide)) (List.length_replicate _ _)
      (not_mem_replicate_newline _ _ (by decide)) (le_of_eq (List.length_replicate _ _))
      (not_mem_replicate_newline _ _ (by decide)) (List.length_replicate _ _)
      (not_mem_replicate_newline _ _ (by decide)) (List.length_replicate _ _)
      (not_mem_replicate_newline _ _ (by decide)) (le_of_eq (List.length_replicate _ _))]
    exact ⟨_, rfl, rfl⟩

/-! ## C4: high-quality bases never exceed all bases -/

/-- C4 (amended): for every threshold and every input that holds no NUL byte
and has fewer than 2^64 bytes, `count_bases ≤ count_all` holds after every
record processed by the scan, and in the counters of the final summary. -/
theorem count_bases_le_count_all (sgn : Bool) (t : Nat) (input : List Byte)
    (h0 : (0 : Byte) ∉ input) (hlen : input.length < 18446744073709551616) :
    (∀ k s c, stateAfter sgn t k input initial = some (s, c) →
        c.count_bases ≤ c.count_all) ∧
      (∀ c, scan sgn t input = some (.summary c) → c.count_bases ≤ c.count_all) := by
  have hinit : (0 : Byte) ∉ input ∧ initial.count_bases ≤ initial.count_all ∧
      initial.count_all + input.length < 18446744073709551616 := by
    refine ⟨h0, Nat.le_refl _, ?_⟩
    simp only [initial]
    omega
  have hinv := stateAfter_invariant sgn t
    (fun s c => (0 : Byte) ∉ s ∧ c.count_bases ≤ c.count_all ∧
      c.count_all + s.length < 18446744073709551616)
    (fun s c line rest hP hr => accumulate_le_of_no_nul sgn t s c line rest hP hr)
  constructor
  · intro k s c h
    exact (hinv k input initial s c hinit h).2.1
  · intro c h
    obtain ⟨k, hk⟩ := scanLoop_summary_state sgn t _ input initial c h
    exact (hinv k input initial [] c hinit hk).2.1

/-- C4, witness: two records scanned with threshold 30 give 5 high-quality
bases among 6. -/
theorem count_bases_le_count_all_witness :
    ∃ c, scan true 30 (fastq [read5I, readIIII]) = some (.summary c) ∧
      c = ⟨2, 5, 6⟩ ∧ c.count_bases ≤ c.count_all :=
  ⟨⟨2, 5, 6⟩, by decide, rfl,
    (count_bases_le_count_all true 30 (fastq [read5I, readIIII]) (by decide) (by decide)).2
      ⟨2, 5, 6⟩ (by decide)⟩

/-- C4, counterexample: a record with quality line `5I` followed by a record
whose quality line is one NUL byte, scanned with threshold 0.  For the second
record `strlen` is 0, so `l` is -1: `count_all` goes from 2 down to 1 while
`count_bases` stays 2, and the summary has more high-quality bases than
bases. -/
theorem count_bases_gt_count_all_nul :
    scan true 0 (fastq [read5I, nulRead]) = some (.summary ⟨2, 2, 1⟩) ∧
      (stateAfter true 0 2 (fastq [read5I, nulRead]) initial).map Prod.snd = some ⟨2, 2, 1⟩ ∧
      ¬ ((⟨2, 2, 1⟩ : Counters).count_bases ≤ (⟨2, 2, 1⟩ : Counters).count_all) := by
  refine ⟨by decide, by decide, by decide⟩

/-! ## C5: raising the threshold -/

/-- C5: for every input (of fewer than 2^64 bytes, so that no counter wraps)
and all thresholds `t1 ≤ t2`, the scans with `t1` and with `t2` end the same
way: either both print a summary, with the same `count_reads` and `count_all`
and with the `count_bases` of `t1` at least that of `t2`, or both call
`fgets_error` with the same code. -/
theorem threshold_monotone (sgn : Bool) (t1 t2 : Nat) (input : List Byte) (ht : t1 ≤ t2)
    (hlen : input.length < 18446744073709551616) :
    (∃ c1 c2, scan sgn t1 input = some (.summary c1) ∧
        scan sgn t2 input = some (.summary c2) ∧
        c2.count_bases ≤ c1.count_bases ∧ c1.count_reads = c2.count_reads ∧
        c1.count_all = c2.count_all) ∨
      (∃ k, scan sgn t1 input = some (.fgets_error k) ∧
        scan sgn t2 input = some (.fgets_error k)) :=
  scanLoop_threshold_mono sgn ht _ input initial initial (Nat.lt_succ_self _) rfl rfl
    (Nat.le_refl _) (by simp only [initial]; omega)

/-- C5, witness: thresholds 30 and 41 on two records: 5 and then 0
high-quality bases, with 2 reads and 6 bases both times. -/
theorem threshold_monotone_witness :
    scan true 30 (fastq [read5I, readIIII]) = some (.summary ⟨2, 5, 6⟩) ∧
      scan true 41 (fastq [read5I, readIIII]) = some (.summary ⟨2, 0, 6⟩) ∧
      ((∃ c1 c2, scan true 30 (fastq [read5I, readIIII]) = some (.summary c1) ∧
          scan true 41 (fastq [read5I, readIIII]) = some (.summary c2) ∧
          c2.count_bases ≤ c1.count_bases ∧ c1.count_reads = c2.count_reads ∧
          c1.count_all = c2.count_all) ∨
        (∃ k, scan true 30 (fastq [read5I, readIIII]) = some (.fgets_error k) ∧
          scan true 41 (fastq [read5I, readIIII]) = some (.fgets_error k))) :=
  ⟨by decide, by decide,
    threshold_monotone true 30 41 (fastq [read5I, readIIII]) (by decide) (by decide)⟩

/-! ## C10: the counters along the scan -/

/-- C10 (amended): for every input of fewer than 2^64 bytes and every record
processed, `count_reads` and `count_bases` after the record are at least
their values before it; so is `count_all` when the input holds no NUL
byte. -/
theorem counters_nondecreasing (sgn : Bool) (t : Nat) (input : List Byte)
    (hlen : input.length < 18446744073709551616) (k : Nat) (s s' : List Byte)
    (c c' : Counters)
    (h1 : stateAfter sgn t k input initial = some (s, c))
    (h2 : stateAfter sgn t (k + 1) input initial = some (s', c')) :
    c.count_reads ≤ c'.count_reads ∧ c.count_bases ≤ c'.count_bases ∧
      ((0 : Byte) ∉ input → c.count_all ≤ c'.count_all) := by
  have hinit : initial.count_reads + input.length < 18446744073709551616 ∧
      initial.count_bases + input.length < 18446744073709551616 ∧
      ((0 : Byte) ∉ input → (0 : Byte) ∉ input ∧
        initial.count_all + input.length < 18446744073709551616) := by
    simp only [initial]
    exact ⟨by omega, by omega, fun h => ⟨h, by omega⟩⟩
  have hP := stateAfter_invariant sgn t
    (fun s c => c.count_reads + s.length < 18446744073709551616 ∧
      c.count_bases + s.length < 18446744073709551616 ∧
      ((0 : Byte) ∉ input → (0 : Byte) ∉ s ∧
        c.count_all + s.length < 18446744073709551616))
    (fun s c line rest hP hr =>
      (accumulate_monotone sgn t ((0 : Byte) ∉ input) s c line rest hP hr).1)
    k input initial s c hinit h1
  rw [stateAfter_succ, h1, Option.some_bind] at h2
  cases hr : readRecord s with
  | eof => simp [hr] at h2
  | missing e => simp [hr] at h2
  | record line rest =>
    simp only [hr, Option.some.injEq, Prod.mk.injEq] at h2
    obtain ⟨_, e2⟩ := h2
    subst e2
    exact (accumulate_monotone sgn t ((0 : Byte) ∉ input) s c line rest hP hr).2

/-- C10, witness: in the scan of two records with threshold 30, the counters
go from (1, 1, 2) after the first record to (2, 5, 6) after the second. -/
theorem counters_nondecreasing_witness :
    stateAfter true 30 1 (fastq [read5I, readIIII]) initial
        = some (readIIII.bytes, ⟨1, 1, 2⟩) ∧
      stateAfter true 30 2 (fastq [read5I, readIIII]) initial = some ([], ⟨2, 5, 6⟩) ∧
      (1 ≤ 2 ∧ 1 ≤ 5 ∧ ((0 : Byte) ∉ fastq [read5I, readIIII] → 2 ≤ 6)) :=
  ⟨by decide, by decide,
    counters_nondecreasing true 30 (fastq [read5I, readIIII]) (by decide) 1
      readIIII.bytes [] ⟨1, 1, 2⟩ ⟨2, 5, 6⟩ (by decide) (by decide)⟩

/-- C10, counterexample: a record with quality line `IIII` followed by a
record whose quality line is one NUL byte (26 bytes of input in all).  The
second record has `strlen(line) = 0` and `l = -1`, so `count_all` is 4 after
the first record and 3 after the second. -/
theorem count_all_decreases_nul :
    (fastq [readIIII, nulRead]).length = 26 ∧
      (stateAfter true 16 1 (fastq [readIIII, nulRead]) initial).map Prod.snd
        = some ⟨1, 4, 4⟩ ∧
      (stateAfter true 16 2 (fastq [readIIII, nulRead]) initial).map Prod.snd
        = some ⟨2, 4, 3⟩ ∧
      scan true 16 (fastq [readIIII, nulRead]) = some (.summary ⟨2, 4, 3⟩) := by
  refine ⟨by decide, by decide, by decide, by decide⟩

/-! ## C6: truncated records -/

/-- C6 (amended): for every input in which every line has at most 4094
characters, with `n` the number of its lines and `r = n mod 4`: if `r = 0` the
scan ends normally with the summary, and if `r` is 1, 2 or 3 it ends in
`fgets_error` with code `r + 1` and nothing is written to the standard
output. -/
theorem abort_iff_lines (sgn : Bool) (t : Nat) (input : List Byte)
    (hs : ∀ l ∈ lines input, l.length ≤ 4094) :
    ((lines input).length % 4 = 0 → ∃ c, scan sgn t input = some (.summary c)) ∧
      ((lines input).length % 4 ≠ 0 →
        scan sgn t input = some (.fgets_error ((lines input).length % 4 + 1)) ∧
        (scan sgn t input).map stdout = some "") := by
  have key := scanLoop_lines sgn t (input.length + 1) input initial (Nat.lt_succ_self _) hs
  refine ⟨key.1, fun h => ?_⟩
  have e : scan sgn t input = some (.fgets_error ((lines input).length % 4 + 1)) := key.2 h
  exact ⟨e, by rw [e]; rfl⟩

/-- C6, witness: an input of exactly 2 lines aborts with code 3, and a
complete record ends normally. -/
theorem abort_iff_lines_witness :
    (lines (ascii "@r1\nAC\n")).length = 2 ∧
      scan true 16 (ascii "@r1\nAC\n") = some (.fgets_error 3) ∧
      (scan true 16 (ascii "@r1\nAC\n")).map stdout = some "" ∧
      ∃ c, scan true 16 (fastq [read5I]) = some (.summary c) :=
  ⟨by decide,
    ((abort_iff_lines true 16 (ascii "@r1\nAC\n") (by decide)).2 (by decide)).1,
    ((abort_iff_lines true 16 (ascii "@r1\nAC\n") (by decide)).2 (by decide)).2,
    (abort_iff_lines true 16 (fastq [read5I]) (by decide)).1 (by decide)⟩

/-- C6, counterexample: one complete record of 4095 bases is an input of 4
lines, yet the scan aborts with code 3.  The sequence line fills a buffer and
leaves its newline to the next read, so the first group ends with the
separator line; the second group starts with the 4095 quality characters,
continues with their newline, and finds the input used up at its third
read. -/
theorem abort_on_four_lines :
    (longRead 4095).Framed ∧ (lines (fastq [longRead 4095])).length = 4 ∧
      scan true 16 (fastq [longRead 4095]) = some (.fgets_error 3) := by
  have hf : (longRead 4095).Framed :=
    ⟨by decide, not_mem_replicate_newline _ _ (by decide), by decide,
      not_mem_replicate_newline _ _ (by decide)⟩
  refine ⟨hf, ?_, ?_⟩
  · rw [length_lines_fastq [longRead 4095] (fun r hr => by rw [List.mem_singleton.1 hr]; exact hf)]
    rfl
  · exact scan_full_buffer_lines true 16 _ _ _ _ (by decide) (by decide) (by decide) (by decide)
      (not_mem_replicate_newline _ _ (by decide)) (List.length_replicate _ _)
      (not_mem_replicate_newline _ _ (by decide)) (List.length_replicate _ _)

/-! ## C7: characters below the offset -/

/-- C7: for every character `c` with `ord(c) < 33` and every threshold
`t ≤ 65535`, the unsigned 32-bit subtraction `ord(c) - 33` wraps to
`2^32 - 33 + ord(c)`, which is at least `t`: the test of the `for` loop
succeeds and the loop body increments `count_bases` for this character. -/
theorem below_offset_counted (sgn : Bool) (c : Byte) (t : Nat) (hc : c.val < 33)
    (ht : t < 65536) :
    qscore sgn c = 4294967296 - 33 + c.val ∧ t ≤ qscore sgn c ∧
      highScored sgn t c = true ∧
      ∀ n, countLoop sgn t n [c] = (n + 1) % 18446744073709551616 := by
  have hq : qscore sgn c = 4294967296 - 33 + c.val := by
    rw [qscore_eq_decodedScore sgn c (fun _ => by omega)]
    unfold decodedScore
    omega
  have hh : highScored sgn t c = true := by
    simp only [highScored, decide_eq_true_eq, hq]
    omega
  refine ⟨hq, by rw [hq]; omega, hh, fun n => ?_⟩
  simp only [countLoop, List.foldl_cons, List.foldl_nil, hh, if_true]

/-- C7, witness: a space (ASCII 32) in a quality line decodes to 4294967295
and is counted even with the largest threshold 65535. -/
theorem below_offset_counted_witness :
    qscore true 32 = 4294967295 ∧
      scan true 65535 (fastq [⟨ascii "@r", ascii "AC", ascii "+", ascii "I "⟩])
        = some (.summary ⟨1, 1, 2⟩) ∧
      (qscore true 32 = 4294967296 - 33 + (32 : Byte).val ∧ 65535 ≤ qscore true 32 ∧
        highScored true 65535 32 = true ∧
        ∀ n, countLoop true 65535 n [32] = (n + 1) % 18446744073709551616) :=
  ⟨by decide, by decide, below_offset_counted true 32 65535 (by decide) (by decide)⟩

/-! ## C8: the summary line -/

/-- C8: on normal completion the standard output is exactly one line: decimal
`count_reads`, a tab, decimal `count_bases`, a tab, decimal `count_all`, then
a newline, which is the only newline written.  For an input of one record
whose quality line is `!!!!` (the other three lines being any lines of at
most 4094 characters), threshold 0 gives `1\t4\t4` and threshold 1 gives
`1\t0\t4`. -/
theorem summary_line_scenarios (sgn : Bool) (r : FastqRecord)
    (hq : r.quality = ascii "!!!!") (hf : r.Framed) (hw : r.Within 4094) :
    (∀ c, stdout (.summary c) = toString c.count_reads ++ "\t" ++ toString c.count_bases
        ++ "\t" ++ toString c.count_all ++ "\n" ∧
      (stdout (.summary c)).data.count '\n' = 1 ∧
      (stdout (.summary c)).data.getLast? = some '\n') ∧
      (scan sgn 0 (fastq [r])).map stdout = some "1\t4\t4\n" ∧
      (scan sgn 1 (fastq [r])).map stdout = some "1\t0\t4\n" := by
  have h0 := scan_fastq sgn 0 [r] (by simpa using hf) (by simpa using hw)
  have h1 := scan_fastq sgn 1 [r] (by simpa using hf) (by simpa using hw)
  simp only [qualityBuffers, List.map_cons, List.map_nil, List.foldl_cons, List.foldl_nil,
    hq] at h0 h1
  refine ⟨fun c => ⟨rfl, ?_, ?_⟩, ?_, ?_⟩
  · show (summaryLine c).data.count '\n' = 1
    rw [summaryLine_data]
    simp only [List.count_append, List.count_cons, count_newline_toString, List.count_nil]
    decide
  · show (summaryLine c).data.getLast? = some '\n'
    rw [summaryLine_data]
    simp [List.getLast?_append, List.getLast?_cons]
  · rw [h0]; cases sgn <;> decide
  · rw [h1]; cases sgn <;> decide

/-- C8, witness: the record `@r4`, `ACGT`, `+`, `!!!!`. -/
theorem summary_line_scenarios_witness :
    (scan true 0 (ascii "@r4\nACGT\n+\n!!!!\n")).map stdout = some "1\t4\t4\n" ∧
      (scan true 1 (ascii "@r4\nACGT\n+\n!!!!\n")).map stdout = some "1\t0\t4\n" :=
  (summary_line_scenarios true readBang rfl (by decide) (by decide)).2

/-! ## C9: the empty input -/

/-- C9: for every threshold, the scan of an input of zero bytes ends normally
with `count_reads = 0`, `count_bases = 0` and `count_all = 0`. -/
theorem scan_empty (sgn : Bool) (t : Nat) :
    scan sgn t [] = some (.summary ⟨0, 0, 0⟩) ∧
      (scan sgn t []).map stdout = some "0\t0\t0\n" :=
  ⟨rfl, by rw [show scan sgn t [] = some (.summary ⟨0, 0, 0⟩) from rfl]; decide⟩

/-! ## C11: a last line without line terminator -/

/-- C11 (amended): let the last record of the input have a quality line of
`L = |q0| + 1` characters `q0 ++ [x]`, with `L ≤ 4094`, no NUL byte in a
quality line and every line of at most 4094 characters.  When that last line
has no line terminator, the scan ends normally and the record adds `L - 1` to
`count_all`, and to `count_bases` only what the characters `q0` before the
last one contribute: the last character `x` is not examined.  With the
terminator the record adds `L`, and all `L` characters are examined. -/
theorem unterminated_final_line (sgn : Bool) (t : Nat) (rs : List FastqRecord)
    (r : FastqRecord) (q0 : List Byte) (x : Byte) (hq : r.quality = q0 ++ [x])
    (hf : ∀ a ∈ rs, a.Framed) (hw : ∀ a ∈ rs, a.Within 4094)
    (h0 : ∀ a ∈ rs, (0 : Byte) ∉ a.quality)
    (hfr : r.Framed) (hwr : r.Within 4094) (h0r : (0 : Byte) ∉ r.quality)
    (hlen : (fastq (rs ++ [r])).length < 18446744073709551616) :
    scan sgn t (fastq rs ++ r.unterminated) =
        some (.summary
          { count_reads := rs.length + 1
            count_bases := highScoredCount sgn t rs + q0.countP (highScored sgn t)
            count_all := qualityLength rs + q0.length }) ∧
      scan sgn t (fastq rs ++ r.bytes) =
        some (.summary
          { count_reads := rs.length + 1
            count_bases := highScoredCount sgn t rs + (q0 ++ [x]).countP (highScored sgn t)
            count_all := qualityLength rs + (q0.length + 1) }) := by
  have hb := unterminated_length_le rs r
  have hc := highScoredCount_le sgn t rs
  have hq0 : (0 : Byte) ∉ q0 := fun h => h0r (by rw [hq]; simp [h])
  have hx : x ≠ 0 := fun h => h0r (by rw [hq, h]; simp)
  have hL : r.quality.length = q0.length + 1 := by rw [hq]; simp
  have hk0 := List.countP_le_length (highScored sgn t) (l := q0)
  have hk := List.countP_le_length (highScored sgn t) (l := q0 ++ [x])
  rw [← hq, hL] at hk
  have hfold := foldl_accumulate_exact sgn t rs h0 (by omega)
  constructor
  · have hr := readRecord_unterminated r hfr hwr (by rw [hq]; simp)
    unfold scan
    rw [scanLoop_fastq_append sgn t rs _ _ hf hw,
      scanLoop_record sgn t _ _ hr (Nat.lt_succ_self _), hfold, hq,
      accumulate_snoc sgn t _ q0 x hq0 hx (by simp only; omega)]
    simp only [List.length_nil, Nat.zero_add, scanLoop, readRecord_nil]
    rw [Nat.mod_eq_of_lt (by omega), Nat.mod_eq_of_lt (by omega), Nat.mod_eq_of_lt (by omega)]
  · have hr := readRecord_bytes r [] hfr hwr
    rw [List.append_nil] at hr
    unfold scan
    rw [scanLoop_fastq_append sgn t rs _ _ hf hw,
      scanLoop_record sgn t _ _ hr (Nat.lt_succ_self _), hfold,
      accumulate_terminated sgn t _ r.quality h0r (by simp only; omega)]
    simp only [List.length_nil, Nat.zero_add, scanLoop, readRecord_nil]
    rw [hL, ← hq, Nat.mod_eq_of_lt (by omega), Nat.mod_eq_of_lt (by omega),
      Nat.mod_eq_of_lt (by omega)]

/-- C11, witness: after the record `read5I`, the record with quality line
`IIII` adds 3 bases and 3 high-quality bases without its line terminator, 4
and 4 with it (threshold 16). -/
theorem unterminated_final_line_witness :
    scan true 16 (fastq [read5I] ++ readIIII.unterminated) = some (.summary ⟨2, 5, 5⟩) ∧
      scan true 16 (fastq [read5I] ++ readIIII.bytes) = some (.summary ⟨2, 6, 6⟩) :=
  unterminated_final_line true 16 [read5I] readIIII (ascii "III") 73 (by decide) (by decide)
    (by decide) (by decide) (by decide) (by decide) (by decide) (by decide)

/-- C11, counterexample: one record of 4096 bases whose quality line, the last
line of the input, has no line terminator (`L = 4096`).  The sequence line is
read as a full buffer and a second buffer, so the first group ends with the
separator line; the second group starts with 4095 quality characters, goes on
with the last one, and finds the input used up at its third read: the run
aborts with code 3 and the quality line adds nothing, with or without its
line terminator. -/
theorem unterminated_long_read_aborts :
    (longRead 4096).Framed ∧ (longRead 4096).quality.length = 4096 ∧
      scan true 16 (fastq [] ++ (longRead 4096).unterminated) = some (.fgets_error 3) := by
  refine ⟨⟨by decide, not_mem_replicate_newline _ _ (by decide), by decide,
    not_mem_replicate_newline _ _ (by decide)⟩, List.length_replicate _ _, ?_⟩
  have e : longRead 4096 = FastqRecord.mk (ascii "@long")
      (List.replicate 4095 65 ++ List.replicate 1 65) (ascii "+")
      (List.replicate 4095 73 ++ List.replicate 1 73) := by
    simp only [longRead, ← List.replicate_add]
  rw [e]
  exact scan_unterminated_long true 16 _ _ _ _ _ _ (by decide) (by decide) (by decide)
    (by decide) (not_mem_replicate_newline _ _ (by decide)) (List.length_replicate _ _)
    (not_mem_replicate_newline _ _ (by decide)) (by decide)
    (not_mem_replicate_newline _ _ (by decide)) (List.length_replicate _ _)
    (not_mem_replicate_newline _ _ (by decide)) (by decide) (by decide)

/-! ## C12: `is_small_int` -/

/-- C12: for every argument string `s`, `is_small_int(s)` is 1 if and only if
`s` has exactly one or two characters and all of them are decimal digits, and
it is 0 for every other string.  Whenever it is 1, the threshold that `main`
takes from `s` is the integer that `s` denotes, and it is at most 99. -/
theorem is_small_int_iff (sgn : Bool) (s : List Byte) (h0 : (0 : Byte) ∉ s) :
    (is_small_int sgn s = 1 ↔
        (s.length = 1 ∨ s.length = 2) ∧ ∀ c ∈ s, 48 ≤ c.val ∧ c.val ≤ 57) ∧
      (is_small_int sgn s ≠ 1 → is_small_int sgn s = 0) ∧
      (is_small_int sgn s = 1 →
        ∃ n : Nat, n ≤ 99 ∧ denotedInteger s = some (n : Int) ∧
          toUnsignedShort (strtol s) = n ∧
          ∀ rest, ns0007_arguments sgn (s :: rest) = .run n) := by
  have hiff : is_small_int sgn s = 1 ↔
      (s.length = 1 ∨ s.length = 2) ∧ ∀ c ∈ s, 48 ≤ c.val ∧ c.val ≤ 57 := by
    unfold is_small_int
    rw [strlen_eq_length s h0]
    match s with
    | [] => simp
    | [a] =>
      have := isdigit_charValue sgn a
      by_cases h : isdigit (charValue sgn a) = true
      · simp [h, this.1 h]
      · have h' : ¬ (48 ≤ a.val ∧ a.val ≤ 57) := fun x => h (this.2 x)
        simp [h, h']
    | [a, b] =>
      have ia := isdigit_charValue sgn a
      have ib := isdigit_charValue sgn b
      by_cases ha : isdigit (charValue sgn a) = true
      · by_cases hb : isdigit (charValue sgn b) = true
        · simp [ha, hb, ia.1 ha, ib.1 hb]
        · have hb' : ¬ (48 ≤ b.val ∧ b.val ≤ 57) := fun x => hb (ib.2 x)
          simp [ha, hb, hb']
      · have ha' : ¬ (48 ≤ a.val ∧ a.val ≤ 57) := fun x => ha (ia.2 x)
        simp [ha, ha']
    | _ :: _ :: _ :: _ => simp
  refine ⟨hiff, ?_, ?_⟩
  · intro h
    rcases is_small_int_zero_or_one sgn s with e | e
    · exact e
    · exact absurd e h
  · intro h1
    have hne : is_small_int sgn s ≠ 0 := by rw [h1]; decide
    obtain ⟨hlen, hd⟩ := hiff.1 h1
    match s, hlen, hd with
    | [a], _, hd =>
      have ha := hd a (by simp)
      have hv := strtol_one_digit a ha
      refine ⟨a.val - 48, by omega, ?_, ?_, ?_⟩
      · obtain ⟨n1, n2⟩ := ne_sign_of_digit a ha.1
        simp [denotedInteger, denotedNatural, n1, n2, ha]
      · rw [hv, toUnsignedShort_natCast _ (by omega)]
      · intro rest
        simp only [ns0007_arguments, hne, ne_eq, not_false_eq_true, if_true, hv,
          toUnsignedShort_natCast _ (show a.val - 48 < 65536 by omega)]
    | [a, b], _, hd =>
      have ha := hd a (by simp)
      have hb := hd b (by simp)
      have hv := strtol_two_digits a b ha hb
      refine ⟨10 * (a.val - 48) + (b.val - 48), by omega, ?_, ?_, ?_⟩
      · obtain ⟨n1, n2⟩ := ne_sign_of_digit a ha.1
        simp [denotedInteger, denotedNatural, n1, n2, ha, hb]
      · rw [hv, toUnsignedShort_natCast _ (by omega)]
      · intro rest
        simp only [ns0007_arguments, hne, ne_eq, not_false_eq_true, if_true, hv,
          toUnsignedShort_natCast _
            (show 10 * (a.val - 48) + (b.val - 48) < 65536 by omega)]

/-- C12, witness: `42` is a small integer and gives the threshold 42; `7`
gives 7; `123`, `4x` and the empty string are not small integers. -/
theorem is_small_int_iff_witness :
    is_small_int true (ascii "42") = 1 ∧ is_small_int true (ascii "7") = 1 ∧
      is_small_int true (ascii "123") = 0 ∧ is_small_int true (ascii "4x") = 0 ∧
      is_small_int true [] = 0 ∧
      ns0007_arguments true [ascii "42", ascii "reads.fastq"] = .run 42 ∧
      (is_small_int true (ascii "42") = 1 ↔
        ((ascii "42").length = 1 ∨ (ascii "42").length = 2) ∧
          ∀ c ∈ ascii "42", 48 ≤ c.val ∧ c.val ≤ 57) :=
  ⟨by decide, by decide, by decide, by decide, by decide, by decide,
    (is_small_int_iff true (ascii "42") (by decide)).1⟩

/-! ## C13: the final argument and the input -/

/-- C13 (amended): for the invocation whose only argument is a small integer
(`ns0007 20`) and for the invocation `-q value` (`ns0007 -q 21`), the final
argument is read as the threshold and is still tried as the path of the input
file: the scan runs with the threshold so given, and it reads the standard
input when no file named by the final argument can be opened; when such a
file can be opened, it reads that file instead. -/
theorem final_argument_source (sgn : Bool) (files : List Byte → Option (List Byte))
    (stdin last : List Byte) (argv : List (List Byte))
    (ha : (argv = [last] ∧ is_small_int sgn last = 1) ∨ argv = [ascii "-q", last]) :
    ns0007_arguments sgn argv = .run (toUnsignedShort (strtol last)) ∧
      (files last = none →
        ns0007_source files argv = .standardInput ∧
        ns0007_main sgn files argv stdin =
          .scanned (scan sgn (toUnsignedShort (strtol last)) stdin)) ∧
      (∀ contents, files last = some contents →
        ns0007_source files argv = .file last ∧
        ns0007_main sgn files argv stdin =
          .scanned (scan sgn (toUnsignedShort (strtol last)) contents)) := by
  have hargs : ns0007_arguments sgn argv = .run (toUnsignedShort (strtol last)) := by
    rcases ha with ⟨e, h1⟩ | e
    · subst e
      simp [ns0007_arguments, h1]
    · subst e
      exact ns0007_arguments_q sgn last
  have hlast : argv.getLast? = some last := by
    rcases ha with ⟨e, _⟩ | e <;> subst e <;> simp
  refine ⟨hargs, fun hfile => ?_, fun contents hfile => ?_⟩
  · have hsrc := ns0007_source_none files argv last hlast hfile
    exact ⟨hsrc, by rw [ns0007_main_run sgn files argv stdin _ hargs, hsrc]; rfl⟩
  · have hsrc := ns0007_source_some files argv last contents hlast hfile
    refine ⟨hsrc, ?_⟩
    rw [ns0007_main_run sgn files argv stdin _ hargs, hsrc]
    simp [sourceBytes, hfile]

/-- C13, witness: `ns0007 -q 21` in a directory without readable files reads
the record on the standard input, with threshold 21. -/
theorem final_argument_source_witness :
    ns0007_arguments true [ascii "-q", ascii "21"] = .run 21 ∧
      ns0007_source noFiles [ascii "-q", ascii "21"] = .standardInput ∧
      ns0007_main true noFiles [ascii "-q", ascii "21"] (fastq [read5I]) =
        .scanned (some (.summary ⟨1, 1, 2⟩)) :=
  ⟨(final_argument_source true noFiles (fastq [read5I]) (ascii "21")
      [ascii "-q", ascii "21"] (Or.inr rfl)).1,
    ((final_argument_source true noFiles (fastq [read5I]) (ascii "21")
      [ascii "-q", ascii "21"] (Or.inr rfl)).2.1 rfl).1,
    ((final_argument_source true noFiles (fastq [read5I]) (ascii "21")
      [ascii "-q", ascii "21"] (Or.inr rfl)).2.1 rfl).2⟩

/-- C13, counterexample: `ns0007 20` and `ns0007 -q 21`, each run with an empty
standard input in a directory that holds a readable file named like the
final argument (`20`, `21`) with one record in it.  The argument is read as
the threshold, and still `fopen(argv[argc - 1], "r")` succeeds and the
standard input is reopened on the file: the summary counts the record of the
file, where the empty standard input would give `0 0 0`. -/
theorem threshold_argument_opened_as_file :
    is_small_int true (ascii "20") = 1 ∧
      ns0007_source (oneFile (ascii "20") (fastq [read5I])) [ascii "20"]
        = .file (ascii "20") ∧
      ns0007_main true (oneFile (ascii "20") (fastq [read5I])) [ascii "20"] []
        = .scanned (some (.summary ⟨1, 2, 2⟩)) ∧
      ns0007_source (oneFile (ascii "21") (fastq [read5I])) [ascii "-q", ascii "21"]
        = .file (ascii "21") ∧
      ns0007_main true (oneFile (ascii "21") (fastq [read5I])) [ascii "-q", ascii "21"] []
        = .scanned (some (.summary ⟨1, 1, 2⟩)) ∧
      scan true 20 [] = some (.summary ⟨0, 0, 0⟩) := by
  refine ⟨by decide, by decide, by decide, by decide, by decide, by decide⟩

/-! ## C14: the default thresholds -/

/-- C15: the threshold argument is converted by `strtol` and reduced to an
`unsigned short` without validation.  For every integer `n` in the range of
`long` and every string that denotes it, given as the value of `-q` to
`ns0007` or as the first argument to `jf0007`, the threshold used by the scan
is `n mod 65536`; this is `n` itself exactly when `0 ≤ n ≤ 65535`. -/
theorem threshold_reduced (sgn : Bool) (files : List Byte → Option (List Byte))
    (stdin s : List Byte) (n : Int) (hd : denotedInteger s = some n)
    (hlo : -9223372036854775808 ≤ n) (hhi : n ≤ 9223372036854775807) :
    ns0007_arguments sgn [ascii "-q", s] = .run (n % 65536).toNat ∧
      ns0007_main sgn files [ascii "-q", s] stdin =
        .scanned (scan sgn (n % 65536).toNat
          (sourceBytes files stdin (ns0007_source files [ascii "-q", s]))) ∧
      jf0007_minimal_score [s] = (n % 65536).toNat ∧
      jf0007_main sgn [s] stdin = jfScan sgn (n % 65536).toNat stdin ∧
      (((n % 65536).toNat : Int) = n ↔ 0 ≤ n ∧ n ≤ 65535) := by
  have hv := strtol_denoted s n hd hlo hhi
  have hargs : ns0007_arguments sgn [ascii "-q", s] = .run (n % 65536).toNat := by
    rw [ns0007_arguments_q, hv]; rfl
  have hjf : jf0007_minimal_score [s] = (n % 65536).toNat := by
    simp only [jf0007_minimal_score, hv]; rfl
  refine ⟨hargs, ns0007_main_run sgn files _ stdin _ hargs, hjf, ?_, ?_⟩
  · simp only [jf0007_main, hjf]
  · omega

/-- C15, witness: `-1` gives the threshold 65535, `65536` gives 0 and `300`
gives 300. -/
theorem threshold_reduced_witness :
    ns0007_arguments true [ascii "-q", ascii "-1"] = .run 65535 ∧
      jf0007_minimal_score [ascii "-1"] = 65535 ∧
      ns0007_arguments true [ascii "-q", ascii "65536"] = .run 0 ∧
      jf0007_minimal_score [ascii "65536"] = 0 ∧
      ns0007_arguments true [ascii "-q", ascii "300"] = .run 300 ∧
      ns0007_arguments true [ascii "-q", ascii "-1"] = .run ((-1 : Int) % 65536).toNat :=
  ⟨by decide, by decide, by decide, by decide, by decide,
    (threshold_reduced true noFiles [] (ascii "-1") (-1) (by decide) (by decide)
      (by decide)).1⟩

/-! ## C16: `jf0007` and `ns0007` -/

/-- C16: for every threshold and every input in which each line has at most
2046 characters, `jf0007` and `ns0007` end the same way: either both abort
through `fgets_error` with the same code, or both print their summary, and
the numbers of bases and of sequences printed by `jf0007` are `count_bases`
and `count_reads` of `ns0007`. -/
theorem jf0007_agrees_with_ns0007 (sgn : Bool) (t : Nat) (input : List Byte)
    (hs : ∀ l ∈ lines input, l.length ≤ 2046) :
    (∃ c, scan sgn t input = some (.summary c) ∧
        jfScan sgn t input =
          some (.summary { count_base := c.count_bases, count_line := c.count_reads }) ∧
        (jfScan sgn t input).map jfStdout =
          some (toString c.count_bases ++ " bases in " ++ toString c.count_reads
            ++ " sequences\n")) ∨
      (∃ k, scan sgn t input = some (.fgets_error k) ∧
        jfScan sgn t input = some (.fgets_error k)) := by
  have h := jfScan_eq sgn t input hs
  obtain ⟨o, ho⟩ := scan_total sgn t input
  rw [ho] at h
  cases o with
  | summary c => exact Or.inl ⟨c, ho, h, by rw [h]; rfl⟩
  | fgets_error k => exact Or.inr ⟨k, ho, h⟩

/-- C16, witness: on two records with threshold 30 `ns0007` prints 2, 5, 6 and
`jf0007` prints 5 bases in 2 sequences; on an input of 2 lines both abort with
code 3. -/
theorem jf0007_agrees_with_ns0007_witness :
    scan true 30 (fastq [read5I, readIIII]) = some (.summary ⟨2, 5, 6⟩) ∧
      (jfScan true 30 (fastq [read5I, readIIII])).map jfStdout
        = some "5 bases in 2 sequences\n" ∧
      jfScan true 30 (ascii "@r1\nAC\n") = some (.fgets_error 3) ∧
      ((∃ c, scan true 30 (fastq [read5I, readIIII]) = some (.summary c) ∧
          jfScan true 30 (fastq [read5I, readIIII]) =
            some (.summary { count_base := c.count_bases, count_line := c.count_reads }) ∧
          (jfScan true 30 (fastq [read5I, readIIII])).map jfStdout =
            some (toString c.count_bases ++ " bases in " ++ toString c.count_reads
              ++ " sequences\n")) ∨
        (∃ k, scan true 30 (fastq [read5I, readIIII]) = some (.fgets_error k) ∧
          jfScan true 30 (fastq [read5I, readIIII]) = some (.fgets_error k))) :=
  ⟨by decide, by decide, by decide,
    jf0007_agrees_with_ns0007 true 30 (fastq [read5I, readIIII]) (by decide)⟩

/-! ## C17: the scan groups buffers, not lines -/

/-- C17: an iteration of the scan groups four successive `fgets` buffers of at
most 4095 characters, not four lines.  A line of `L` characters with its
newline takes `⌈(L + 1) / 4095⌉` of these reads and no fewer, so a single
`fgets` returns the whole line exactly when `L ≤ 4094`.  A single 4-line
record whose header line has 4095 characters is read as five buffers, and the
run aborts with code 2. -/
theorem buffers_not_lines (sgn : Bool) (t : Nat) (l rest : List Byte)
    (hl : (10 : Byte) ∉ l) :
    (∀ s line r, readRecord s = .record line r ↔
        ∃ b1 b2 b3, fgetsTimes 4 s = some ([b1, b2, b3, line], r)) ∧
      (∃ bs, fgetsTimes ((l.length + 1 + 4094) / 4095) (l ++ 10 :: rest) = some (bs, rest) ∧
        bs.flatten = l ++ [10] ∧ ∀ b ∈ bs, b.length ≤ 4095) ∧
      (∀ k bs r, k < (l.length + 1 + 4094) / 4095 →
        fgetsTimes k (l ++ 10 :: rest) = some (bs, r) → rest.length < r.length) ∧
      (fgets MAX_CHAR (l ++ 10 :: rest) = some (l ++ [10], rest) ↔ l.length ≤ 4094) ∧
      (longHeader 4095).Framed ∧
      scan sgn t (fastq [longHeader 4095]) = some (.fgets_error 2) ∧
      fgetsTimes 5 (fastq [longHeader 4095]) =
        some ([List.replicate 4095 64, [10], ascii "ACGT" ++ [10], ascii "+" ++ [10],
          ascii "IIII" ++ [10]], []) ∧
      fgetsTimes 6 (fastq [longHeader 4095]) = none := by
  have hline := fgetsTimes_line l.length l rest rfl hl
  have hex := scan_full_header sgn t (List.replicate 4095 64) (ascii "ACGT") (ascii "+")
    (ascii "IIII") (not_mem_replicate_newline _ _ (by decide)) (List.length_replicate _ _)
    (by decide) (by decide) (by decide) (by decide) (by decide) (by decide)
  have hf : (longHeader 4095).Framed :=
    ⟨not_mem_replicate_newline _ _ (by decide), by decide, by decide, by decide⟩
  exact ⟨readRecord_iff_fgetsTimes, hline.1, hline.2, fgets_whole_line_iff l rest hl, hf,
    hex.1, hex.2.1, hex.2.2⟩

/-- C17, witness: a line of 3 characters takes one read; the record `read5I`
is one group of four buffers. -/
theorem buffers_not_lines_witness :
    ((ascii "ACG").length + 1 + 4094) / 4095 = 1 ∧
      fgetsTimes 1 (ascii "ACG\nrest") = some ([ascii "ACG\n"], ascii "rest") ∧
      fgetsTimes 4 (fastq [read5I]) =
        some ([ascii "@r1\n", ascii "AC\n", ascii "+\n", ascii "5I\n"], []) ∧
      (fgets MAX_CHAR (ascii "ACG" ++ 10 :: ascii "rest")
          = some (ascii "ACG" ++ [10], ascii "rest") ↔ (ascii "ACG").length ≤ 4094) :=
  ⟨by decide, by decide, by decide,
    (buffers_not_lines true 16 (ascii "ACG") (ascii "rest") (by decide)).2.2.2.1⟩

end Genomics
